import Mathlib

/-!
Verification of the FindAFactor factoring kernel
(`src/FindAFactor/_find_a_factor.cpp`) against its natural-language
specification.

The C++ source is shallowly embedded: `boost::multiprecision::cpp_int`
values that stay nonnegative are modelled as `Nat`; the places where a
`cpp_int` can go negative (`x - y` inside `checkPerfectSquare` and the
Euclidean `gcd` applied to it, and the value returned by
`getNextAltBatch`) are modelled as `Int` with C++ truncated
division/remainder semantics (`Int.tmod`); `size_t` arithmetic is
modelled as `Nat`, with an explicit `% 2^64` exactly where the source can
wrap (the `primeCeiling * primeCeiling` square and the `(size_t)` cast in
the driver).  `std::vector` and `boost::dynamic_bitset` contents are
modelled as index-to-value functions, and the boost "empty bitset"
failure sentinel of `factorizationVector` as `Option`.  Loops become
recursive functions with the same branch structure as the source.
-/

namespace Qimcifa

/-! ### The binary-search integer square root (`sqrt`, lines 119-142)

The C++ is a do-while loop on `start = 1`, `end = toTest >> 1`, `ans = 0`:
the body computes `mid = (start + end) >> 1` and either returns `mid` when
`mid * mid == toTest`, moves `start` to `mid + 1` (recording `ans = mid`)
when `mid * mid < toTest`, or moves `end` to `mid - 1`; the loop repeats
while `start <= end`.  `sqrtLoop` is the loop body with the do-while
continuation test placed before each recursive call (a do-while body
always runs once, so the top-level call carries no test).  `end = mid - 1`
is only reached under `mid * mid > toTest`, which forces `mid ≥ 1`, so
truncated `Nat` subtraction agrees with the signed C++ value on every
reachable configuration. -/
def sqrtLoop (toTest start e ans : Nat) : Nat :=
  if h1 : (start + e) / 2 * ((start + e) / 2) = toTest then (start + e) / 2
  else if h2 : (start + e) / 2 * ((start + e) / 2) < toTest then
    (if h3 : (start + e) / 2 + 1 ≤ e then sqrtLoop toTest ((start + e) / 2 + 1) e ((start + e) / 2)
     else (start + e) / 2)
  else
    (if h4 : start ≤ (start + e) / 2 - 1 then sqrtLoop toTest start ((start + e) / 2 - 1) ans
     else ans)
termination_by e + 1 - start
decreasing_by
  · omega
  · have h5 : (start + e) / 2 ≠ 0 := by
      intro hz
      rw [hz] at h1 h2
      omega
    omega

/-- Model of `BigInteger sqrt(const BigInteger &toTest)` (and of the
identical `size_t _sqrt`): binary search on `[1, toTest/2]`. -/
def sqrt (toTest : Nat) : Nat := sqrtLoop toTest 1 (toTest / 2) 0

/-- Loop invariant of the binary search: if `start = ans + 1`,
`ans * ans ≤ toTest` and `toTest < (e + 1)²` hold at entry, the loop
returns the floor square root of `toTest`. -/
theorem sqrtLoop_spec (toTest start e ans : Nat) :
    start = ans + 1 → ans * ans ≤ toTest → toTest < (e + 1) * (e + 1) →
    sqrtLoop toTest start e ans * sqrtLoop toTest start e ans ≤ toTest ∧
      toTest < (sqrtLoop toTest start e ans + 1) * (sqrtLoop toTest start e ans + 1) := by
  induction start, e, ans using sqrtLoop.induct toTest with
  | case1 start e ans h1 =>
    intro hs hl hu
    rw [sqrtLoop, dif_pos h1]
    have hm : (start + e) / 2 * ((start + e) / 2) <
        ((start + e) / 2 + 1) * ((start + e) / 2 + 1) :=
      Nat.mul_self_lt_mul_self (Nat.lt_succ_self _)
    exact ⟨Nat.le_of_eq h1, by omega⟩
  | case2 start e ans h1 h2 h3 ih =>
    intro hs hl hu
    rw [sqrtLoop, dif_neg h1, dif_pos h2, dif_pos h3]
    exact ih rfl (Nat.le_of_lt h2) hu
  | case3 start e ans h1 h2 h3 =>
    intro hs hl hu
    rw [sqrtLoop, dif_neg h1, dif_pos h2, dif_neg h3]
    refine ⟨Nat.le_of_lt h2, ?_⟩
    have hme : e + 1 ≤ (start + e) / 2 + 1 := by omega
    have hm : (e + 1) * (e + 1) ≤ ((start + e) / 2 + 1) * ((start + e) / 2 + 1) :=
      Nat.mul_le_mul hme hme
    omega
  | case4 start e ans h1 h2 h4 ih =>
    intro hs hl hu
    rw [sqrtLoop, dif_neg h1, dif_neg h2, dif_pos h4]
    refine ih hs hl ?_
    have h5 : (start + e) / 2 ≠ 0 := by
      intro hz; rw [hz] at h1 h2; omega
    have hrw : (start + e) / 2 - 1 + 1 = (start + e) / 2 := by omega
    rw [hrw]
    omega
  | case5 start e ans h1 h2 h4 =>
    intro hs hl hu
    rw [sqrtLoop, dif_neg h1, dif_neg h2, dif_neg h4]
    refine ⟨hl, ?_⟩
    have h5 : (start + e) / 2 ≠ 0 := by
      intro hz; rw [hz] at h1 h2; omega
    have hsm : (start + e) / 2 ≤ start := by omega
    have hmm : (start + e) / 2 * ((start + e) / 2) ≤ start * start :=
      Nat.mul_le_mul hsm hsm
    rw [show ans + 1 = start from hs.symm]
    omega

theorem sqrt_le_and_lt (n : Nat) (h : 2 ≤ n) :
    sqrt n * sqrt n ≤ n ∧ n < (sqrt n + 1) * (sqrt n + 1) := by
  refine sqrtLoop_spec n 1 (n / 2) 0 rfl (Nat.zero_le n) ?_
  have h2 : 1 ≤ n / 2 := by omega
  have h3 : n ≤ 2 * (n / 2) + 1 := by omega
  nlinarith

/-- On input 1 the search interval `[1, 0]` is empty, the single do-while
pass computes `mid = 0` and the loop exits with `ans = 0`. -/
theorem sqrt_one : sqrt 1 = 0 := by
  rw [sqrt, sqrtLoop]
  norm_num

/-- C10.  The claim says `sqrt(n)` returns the largest `m` with
`m·m ≤ n` for every `n ≥ 1`; that fails at `n = 1` (the code returns 0,
see `c10_counterexample`), and this amended statement holds for every
`n ≥ 2`: `sqrt n` is the largest `m` with `m * m ≤ n`. -/
theorem c10_sqrt_is_floor_sqrt (n : Nat) (h : 2 ≤ n) :
    sqrt n * sqrt n ≤ n ∧ ∀ m : Nat, m * m ≤ n → m ≤ sqrt n := by
  obtain ⟨h1, h2⟩ := sqrt_le_and_lt n h
  refine ⟨h1, fun m hm => ?_⟩
  by_contra hc
  have hsm : sqrt n + 1 ≤ m := by omega
  have : (sqrt n + 1) * (sqrt n + 1) ≤ m * m := Nat.mul_le_mul hsm hsm
  omega

/-- C10 counterexample: at `n = 1` the claim demands the largest `m` with
`m * m ≤ 1`, which is 1, but the code returns 0 (the binary search runs on
the empty interval `[1, 1/2] = [1, 0]` and never tests `m = 1`). -/
theorem c10_counterexample : 1 * 1 ≤ 1 ∧ ¬ (1 ≤ sqrt 1) := by
  rw [sqrt_one]
  norm_num

/-- C10 witness: the amended theorem applied at `n = 10`. -/
theorem c10_witness :
    2 ≤ 10 ∧ (sqrt 10 * sqrt 10 ≤ 10 ∧ ∀ m : Nat, m * m ≤ 10 → m ≤ sqrt 10) :=
  ⟨by norm_num, c10_sqrt_is_floor_sqrt 10 (by norm_num)⟩

/-! ### Driver stage 1: the perfect-square early return (lines 880-883) -/

/-- Model of `fullMaxBase = sqrt(toFactor); if (fullMaxBase * fullMaxBase
== toFactor) return fullMaxBase;`: `some` is the early return, `none`
means the driver continues to trial division. -/
def perfectSquareCheck (toFactor : Nat) : Option Nat :=
  if sqrt toFactor * sqrt toFactor = toFactor then some (sqrt toFactor) else none

theorem sqrt_mul_self (m : Nat) (h : 2 ≤ m) : sqrt (m * m) = m := by
  obtain ⟨h1, h2⟩ := sqrt_le_and_lt (m * m) (by nlinarith)
  by_contra hc
  rcases Nat.lt_or_ge (sqrt (m * m)) m with hlt | hge
  · have : sqrt (m * m) + 1 ≤ m := hlt
    have := Nat.mul_le_mul this this
    omega
  · have hgt : m + 1 ≤ sqrt (m * m) := by omega
    have := Nat.mul_le_mul hgt hgt
    nlinarith

/-- C2 (amended).  The claim says that for every perfect square
`N = m²` with `m ≥ 1` the driver returns `m` through the early
`⌊√N⌋² == N` check; that fails at `m = 1` (see `c2_counterexample`), and
holds for every `m ≥ 2`: the early check fires and returns `m`. -/
theorem c2_perfect_square_returns_root (m : Nat) (h : 2 ≤ m) :
    perfectSquareCheck (m * m) = some m := by
  rw [perfectSquareCheck, sqrt_mul_self m h, if_pos rfl]

/-- C2 counterexample: `N = 1 = 1²` is a perfect square with `m = 1`, but
the early check does not fire (`sqrt 1 = 0` and `0 * 0 ≠ 1`), so the
driver does not return through the `⌊√N⌋² == N` branch. -/
theorem c2_counterexample : 1 = 1 * 1 ∧ perfectSquareCheck 1 = none := by
  refine ⟨rfl, ?_⟩
  rw [perfectSquareCheck, sqrt_one]
  norm_num

/-- C2 witness: the amended theorem applied at `m = 3`. -/
theorem c2_witness : 2 ≤ 3 ∧ perfectSquareCheck (3 * 3) = some 3 :=
  ⟨by norm_num, c2_perfect_square_returns_root 3 (by norm_num)⟩


/-! ### `Factorizer::getNextAltBatch` (lines 525-535)

The method runs under `batchMutex`, so its sequential semantics is a pure
state transformer.  `batchNumber++ >> 1U` reads the counter before the
increment; the parity test `batchNumber & 1U` reads it after.  All fields
are `cpp_int`; the returned `batchTotal - halfIndex` can go negative (the
spec itself flags this), so the model works over `Int`.  The counter
starts at 0 and only ever increments, so `>> 1` (arithmetic shift, floor
division) and `& 1` on it agree with division and remainder by 2. -/

structure AltBatchState where
  batchRange : Int
  batchNumber : Int
  batchOffset : Int
  batchTotal : Int
  isIncomplete : Bool

/-- Model of `Factorizer::getNextAltBatch`: returns the batch index and
the updated state. -/
def getNextAltBatch (s : AltBatchState) : Int × AltBatchState :=
  let inc := if s.batchNumber ≥ s.batchRange then false else s.isIncomplete
  let halfIndex := s.batchOffset + s.batchNumber / 2 + 1
  (if (s.batchNumber + 1) % 2 = 1 then s.batchTotal - halfIndex else halfIndex,
   { s with batchNumber := s.batchNumber + 1, isIncomplete := inc })

/-- C9 (amended).  For each successive half-index, two successive calls to
`getNextAltBatch` return `batchTotal − (batchOffset + halfIndex)` first
and then `batchOffset + halfIndex` (the order opposite to the claim),
where `halfIndex = batchNumber/2 + 1` at an even counter. -/
theorem c9_alt_batch_pair (s : AltBatchState) (j : Int) (hj : 0 ≤ j)
    (h : s.batchNumber = 2 * j) :
    (getNextAltBatch s).1 = s.batchTotal - (s.batchOffset + j + 1) ∧
      (getNextAltBatch (getNextAltBatch s).2).1 = s.batchOffset + j + 1 := by
  simp only [getNextAltBatch, h]
  omega

/-- C9 counterexample: from the freshly constructed state (counter 0,
offset 0, total 10) the first call returns `batchTotal − halfIndex = 9`
and the second `halfIndex = 1`; the claim predicts the opposite order,
`batchOffset + halfIndex = 1` first. -/
theorem c9_counterexample :
    (getNextAltBatch ⟨5, 0, 0, 10, true⟩).1 ≠ (0 : Int) + (0 / 2 + 1) ∧
      (getNextAltBatch ⟨5, 0, 0, 10, true⟩).1 = 9 ∧
      (getNextAltBatch (getNextAltBatch ⟨5, 0, 0, 10, true⟩).2).1 = 1 := by
  refine ⟨?_, ?_, ?_⟩ <;> decide

/-- C9 witness: the amended theorem applied at a concrete state with
counter 4, offset 7, total 50: the two calls return 40 and then 10. -/
theorem c9_witness :
    (0 : Int) ≤ 2 ∧
      ((getNextAltBatch ⟨100, 4, 7, 50, true⟩).1 = 50 - (7 + 2 + 1) ∧
        (getNextAltBatch (getNextAltBatch ⟨100, 4, 7, 50, true⟩).2).1 = 7 + 2 + 1) :=
  ⟨by norm_num, c9_alt_batch_pair ⟨100, 4, 7, 50, true⟩ 2 (by norm_num) (by norm_num)⟩

/-! ### The radius-2310 wheel maps (lines 197-242)

`wheel11` is the source's 480-entry residue table.  `std::lower_bound` on
a sorted array returns the first position whose element is not smaller
than the probe, so its distance from the array start equals the number of
elements smaller than the probe; `lowerBound` models exactly that count.
-/

def wheel11 : List Nat := [
   1, 13, 17, 19, 23, 29, 31, 37, 41, 43, 47, 53, 59, 61, 67, 71, 73, 79, 83,
   89, 97, 101, 103, 107, 109, 113, 127, 131, 137, 139, 149, 151, 157, 163,
   167, 169, 173, 179, 181, 191, 193, 197, 199, 211, 221, 223, 227, 229, 233,
   239, 241, 247, 251, 257, 263, 269, 271, 277, 281, 283, 289, 293, 299, 307,
   311, 313, 317, 323, 331, 337, 347, 349, 353, 359, 361, 367, 373, 377, 379,
   383, 389, 391, 397, 401, 403, 409, 419, 421, 431, 433, 437, 439, 443, 449,
   457, 461, 463, 467, 479, 481, 487, 491, 493, 499, 503, 509, 521, 523, 527,
   529, 533, 541, 547, 551, 557, 559, 563, 569, 571, 577, 587, 589, 593, 599,
   601, 607, 611, 613, 617, 619, 629, 631, 641, 643, 647, 653, 659, 661, 667,
   673, 677, 683, 689, 691, 697, 701, 703, 709, 713, 719, 727, 731, 733, 739,
   743, 751, 757, 761, 767, 769, 773, 779, 787, 793, 797, 799, 809, 811, 817,
   821, 823, 827, 829, 839, 841, 851, 853, 857, 859, 863, 871, 877, 881, 883,
   887, 893, 899, 901, 907, 911, 919, 923, 929, 937, 941, 943, 947, 949, 953,
   961, 967, 971, 977, 983, 989, 991, 997, 1003, 1007, 1009, 1013, 1019, 1021,
   1027, 1031, 1033, 1037, 1039, 1049, 1051, 1061, 1063, 1069, 1073, 1079,
   1081, 1087, 1091, 1093, 1097, 1103, 1109, 1117, 1121, 1123, 1129, 1139,
   1147, 1151, 1153, 1157, 1159, 1163, 1171, 1181, 1187, 1189, 1193, 1201,
   1207, 1213, 1217, 1219, 1223, 1229, 1231, 1237, 1241, 1247, 1249, 1259,
   1261, 1271, 1273, 1277, 1279, 1283, 1289, 1291, 1297, 1301, 1303, 1307,
   1313, 1319, 1321, 1327, 1333, 1339, 1343, 1349, 1357, 1361, 1363, 1367,
   1369, 1373, 1381, 1387, 1391, 1399, 1403, 1409, 1411, 1417, 1423, 1427,
   1429, 1433, 1439, 1447, 1451, 1453, 1457, 1459, 1469, 1471, 1481, 1483,
   1487, 1489, 1493, 1499, 1501, 1511, 1513, 1517, 1523, 1531, 1537, 1541,
   1543, 1549, 1553, 1559, 1567, 1571, 1577, 1579, 1583, 1591, 1597, 1601,
   1607, 1609, 1613, 1619, 1621, 1627, 1633, 1637, 1643, 1649, 1651, 1657,
   1663, 1667, 1669, 1679, 1681, 1691, 1693, 1697, 1699, 1703, 1709, 1711,
   1717, 1721, 1723, 1733, 1739, 1741, 1747, 1751, 1753, 1759, 1763, 1769,
   1777, 1781, 1783, 1787, 1789, 1801, 1807, 1811, 1817, 1819, 1823, 1829,
   1831, 1843, 1847, 1849, 1853, 1861, 1867, 1871, 1873, 1877, 1879, 1889,
   1891, 1901, 1907, 1909, 1913, 1919, 1921, 1927, 1931, 1933, 1937, 1943,
   1949, 1951, 1957, 1961, 1963, 1973, 1979, 1987, 1993, 1997, 1999, 2003,
   2011, 2017, 2021, 2027, 2029, 2033, 2039, 2041, 2047, 2053, 2059, 2063,
   2069, 2071, 2077, 2081, 2083, 2087, 2089, 2099, 2111, 2113, 2117, 2119,
   2129, 2131, 2137, 2141, 2143, 2147, 2153, 2159, 2161, 2171, 2173, 2179,
   2183, 2197, 2201, 2203, 2207, 2209, 2213, 2221, 2227, 2231, 2237, 2239,
   2243, 2249, 2251, 2257, 2263, 2267, 2269, 2273, 2279, 2281, 2287, 2291,
   2293, 2297, 2309]

def lowerBound (l : List Nat) (x : Nat) : Nat := l.countP (fun y => decide (y < x))

/-- Model of `_forward11` (line 240): `wheel11[p % 480] + (p / 480) * 2310`
(identical to `forward` of `src/src/find_a_factor.cpp`, lines 185-188). -/
def forward11 (p : Nat) : Nat := wheel11.getD (p % 480) 0 + (p / 480) * 2310

/-- Model of `_backward11` (line 242):
`lower_bound(wheel11, n % 2310) + 480 * (n / 2310) + 1` (identical to
`backward` of `src/src/find_a_factor.cpp`, lines 190-192). -/
def backward11 (n : Nat) : Nat := lowerBound wheel11 (n % 2310) + 480 * (n / 2310) + 1

set_option maxRecDepth 4000 in
theorem wheel11_length : wheel11.length = 480 := by decide

/-- Linear-time check that a list is strictly ascending. -/
def isAscendingBool : List Nat → Bool
  | [] => true
  | [_] => true
  | a :: b :: t => decide (a < b) && isAscendingBool (b :: t)

theorem pairwise_of_isAscendingBool :
    ∀ l : List Nat, isAscendingBool l = true → List.Pairwise (· < ·) l
  | [] => fun _ => List.Pairwise.nil
  | [a] => fun _ => List.pairwise_singleton _ a
  | a :: b :: t => fun h => by
    rw [isAscendingBool, Bool.and_eq_true, decide_eq_true_eq] at h
    have htail := pairwise_of_isAscendingBool (b :: t) h.2
    refine List.pairwise_cons.mpr ⟨?_, htail⟩
    intro c hc
    rcases List.mem_cons.mp hc with hcb | hct
    · exact hcb ▸ h.1
    · exact lt_trans h.1 (List.rel_of_pairwise_cons htail hct)

set_option maxRecDepth 4000 in
theorem wheel11_ascending : isAscendingBool wheel11 = true := by decide

theorem wheel11_pairwise : List.Pairwise (· < ·) wheel11 :=
  pairwise_of_isAscendingBool wheel11 wheel11_ascending

set_option maxRecDepth 4000 in
theorem wheel11_lt_radius : ∀ x ∈ wheel11, x < 2310 := by decide

set_option maxRecDepth 8000 in
/-- The table lists exactly the residues modulo 2310 not divisible by any
of 2, 3, 5, 7, 11, in ascending order. -/
theorem wheel11_eq_filter :
    wheel11 = (List.range 2310).filter
      (fun r => r % 2 != 0 && r % 3 != 0 && r % 5 != 0 && r % 7 != 0 && r % 11 != 0) := by
  decide

/-- In a strictly sorted list the number of elements smaller than the
element at index `i` is `i` itself. -/
theorem countP_lt_getElem :
    ∀ (l : List Nat), List.Pairwise (· < ·) l →
      ∀ (i : Nat) (hi : i < l.length), l.countP (fun y => decide (y < l[i])) = i
  | [], _, i, hi => absurd hi (by simp)
  | a :: t, hl, 0, hi => by
    rcases List.pairwise_cons.mp hl with ⟨ha, ht⟩
    simp only [List.getElem_cons_zero, List.countP_cons]
    have h0 : t.countP (fun y => decide (y < a)) = 0 := by
      rw [List.countP_eq_zero]
      intro y hy
      simp only [decide_eq_true_eq]
      exact Nat.not_lt.mpr (Nat.le_of_lt (ha y hy))
    simp [h0]
  | a :: t, hl, j+1, hi => by
    rcases List.pairwise_cons.mp hl with ⟨ha, ht⟩
    have hj : j < t.length := by simpa using hi
    have hcnt := countP_lt_getElem t ht j hj
    have hlt : a < t[j] := ha _ (t.get_mem j hj)
    simp only [List.getElem_cons_succ, List.countP_cons, hcnt]
    simp [hlt]

theorem coprime_prime_mod (n p : Nat) (hp : p.Prime) :
    Nat.Coprime n p ↔ n % p ≠ 0 := by
  rw [Nat.coprime_comm, Nat.Prime.coprime_iff_not_dvd hp]
  exact not_congr Nat.dvd_iff_mod_eq_zero

theorem coprime_2310_iff (n : Nat) :
    Nat.Coprime n 2310 ↔
      n % 2 ≠ 0 ∧ n % 3 ≠ 0 ∧ n % 5 ≠ 0 ∧ n % 7 ≠ 0 ∧ n % 11 ≠ 0 := by
  have h : (2310 : Nat) = 2 * (3 * (5 * (7 * 11))) := by norm_num
  rw [h, Nat.coprime_mul_iff_right, Nat.coprime_mul_iff_right,
    Nat.coprime_mul_iff_right, Nat.coprime_mul_iff_right,
    coprime_prime_mod n 2 (by norm_num), coprime_prime_mod n 3 (by norm_num),
    coprime_prime_mod n 5 (by norm_num), coprime_prime_mod n 7 (by norm_num),
    coprime_prime_mod n 11 (by norm_num)]

theorem mem_wheel11_of_coprime (n : Nat) (hc : Nat.Coprime n 2310) :
    n % 2310 ∈ wheel11 := by
  rw [wheel11_eq_filter, List.mem_filter]
  have hlt : n % 2310 < 2310 := Nat.mod_lt n (by norm_num)
  refine ⟨List.mem_range.mpr hlt, ?_⟩
  obtain ⟨h2, h3, h5, h7, h11⟩ := (coprime_2310_iff n).mp hc
  have m2 : n % 2310 % 2 = n % 2 := Nat.mod_mod_of_dvd n (by norm_num)
  have m3 : n % 2310 % 3 = n % 3 := Nat.mod_mod_of_dvd n (by norm_num)
  have m5 : n % 2310 % 5 = n % 5 := Nat.mod_mod_of_dvd n (by norm_num)
  have m7 : n % 2310 % 7 = n % 7 := Nat.mod_mod_of_dvd n (by norm_num)
  have m11 : n % 2310 % 11 = n % 11 := Nat.mod_mod_of_dvd n (by norm_num)
  simp only [Bool.and_eq_true, bne_iff_ne, ne_eq]
  rw [m2, m3, m5, m7, m11]
  tauto

set_option maxRecDepth 4000 in
/-- C5 (amended).  The source maps are inverse up to an index shift of
one: `_forward11` is 0-indexed (`forward11 p` is the `(p+1)`-th positive
integer coprime to 2310) while `_backward11` is 1-indexed, so
`backward11 (forward11 k) = k + 1` for every `k ≥ 0`, and
`forward11 (backward11 n - 1) = n` for every `n ≥ 1` coprime to 2310
(rather than the claimed `backward11 (forward11 k) = k` and
`forward11 (backward11 n) = n`). -/
theorem c5_wheel11_roundtrip :
    (∀ k : Nat, backward11 (forward11 k) = k + 1) ∧
      ∀ n : Nat, 1 ≤ n → Nat.Coprime n 2310 → forward11 (backward11 n - 1) = n := by
  constructor
  · intro k
    have hr : k % 480 < 480 := Nat.mod_lt k (by norm_num)
    have hrl : k % 480 < wheel11.length := Nat.lt_of_lt_of_le hr (by rw [wheel11_length])
    have hget : wheel11.getD (k % 480) 0 = wheel11[k % 480] :=
      List.getD_eq_getElem wheel11 0 hrl
    have hx : wheel11[k % 480] < 2310 :=
      wheel11_lt_radius _ (wheel11.get_mem _ _)
    rw [forward11, backward11, hget]
    have hmod : (wheel11[k % 480] + k / 480 * 2310) % 2310 = wheel11[k % 480] := by
      omega
    have hdiv : (wheel11[k % 480] + k / 480 * 2310) / 2310 = k / 480 := by
      omega
    rw [hmod, hdiv, lowerBound, countP_lt_getElem wheel11 wheel11_pairwise (k % 480) hrl]
    omega
  · intro n hn hc
    obtain ⟨i, hil, hig⟩ := List.getElem_of_mem (mem_wheel11_of_coprime n hc)
    have hi480 : i < 480 := Nat.lt_of_lt_of_le hil (by rw [wheel11_length])
    rw [backward11, lowerBound, ← hig, countP_lt_getElem wheel11 wheel11_pairwise i hil]
    have hstep : i + 480 * (n / 2310) + 1 - 1 = i + 480 * (n / 2310) := by omega
    rw [hstep, forward11]
    have hmod : (i + 480 * (n / 2310)) % 480 = i := by omega
    have hdiv : (i + 480 * (n / 2310)) / 480 = n / 2310 := by omega
    rw [hmod, hdiv]
    have hget : wheel11.getD i 0 = wheel11[i] :=
      List.getD_eq_getElem wheel11 0 hil
    rw [hget, hig]
    have : n % 2310 + 2310 * (n / 2310) = n := Nat.mod_add_div n 2310
    omega

set_option maxRecDepth 4000 in
/-- C5 counterexample: with the source maps, `forward11 1 = 13` (not 1,
the first positive integer coprime to 2310) and `backward11 13 = 2`, so
`backward11 (forward11 1) = 2 ≠ 1`, and `forward11 (backward11 13) = 17
≠ 13` although 13 is coprime to 2310. -/
theorem c5_counterexample :
    backward11 (forward11 1) = 2 ∧ forward11 (backward11 13) = 17 ∧
      Nat.Coprime 13 2310 := by
  refine ⟨by decide, by decide, by norm_num [Nat.Coprime]⟩

/-- C5 witness: the amended theorem applied at `k = 5` and `n = 13`. -/
theorem c5_witness :
    backward11 (forward11 5) = 5 + 1 ∧
      (1 ≤ 13 ∧ forward11 (backward11 13 - 1) = 13) :=
  ⟨c5_wheel11_roundtrip.1 5,
   ⟨by norm_num, c5_wheel11_roundtrip.2 13 (by norm_num) (by norm_num [Nat.Coprime])⟩⟩

/-! ### `modExp` (lines 471-482), the recursive `gcd` (lines 112-117) and
`Factorizer::checkPerfectSquare` (lines 730-752)

`checkPerfectSquare` computes `x = perfectSquare % toFactor`,
`y = modExp(x, toFactor >> 1, toFactor)` and tests `gcd(toFactor, x + y)`
and `gcd(toFactor, x - y)`.  `x - y` is a signed `cpp_int` and can be
negative; `cpp_int` division truncates toward zero like built-in C++
integers, so `%` on it is `Int.tmod`, and the recursive `gcd` can then
return a negative value, which `checkPerfectSquare` passes through its
`factor != 1 && factor != toFactor` filters unchanged. -/

theorem tmod_neg_left (a b : Int) : (-a).tmod b = -(a.tmod b) := by
  rw [Int.tmod_def, Int.tmod_def, Int.neg_tdiv]
  ring

theorem natAbs_tmod_eq (a b : Int) : (a.tmod b).natAbs = a.natAbs % b.natAbs := by
  have key : ∀ m n : Nat, ((m : Int).tmod (n : Int)).natAbs = m % n := by
    intro m n
    rw [← Int.ofNat_tmod]
    exact Int.natAbs_ofNat _
  rcases Int.natAbs_eq a with ha | ha <;> rcases Int.natAbs_eq b with hb | hb
  · conv_lhs => rw [ha, hb]
    exact key _ _
  · conv_lhs => rw [ha, hb]
    rw [Int.tmod_neg]
    exact key _ _
  · conv_lhs => rw [ha, hb]
    rw [tmod_neg_left, Int.natAbs_neg]
    exact key _ _
  · conv_lhs => rw [ha, hb]
    rw [Int.tmod_neg, tmod_neg_left, Int.natAbs_neg]
    exact key _ _

/-- Model of the recursive `gcd` (lines 112-117) on signed `cpp_int`:
`if (!n2) return n1; return gcd(n2, n1 % n2);` with `%` truncating toward
zero (`Int.tmod`). -/
def gcdInt (n1 n2 : Int) : Int :=
  if h : n2 = 0 then n1 else gcdInt n2 (n1.tmod n2)
termination_by n2.natAbs
decreasing_by
  rw [natAbs_tmod_eq]
  exact Nat.mod_lt _ (Int.natAbs_pos.mpr h)

/-- The while-loop of `modExp` as an accumulator recursion on `exp`. -/
def modExpLoop (result base exp m : Nat) : Nat :=
  if _h : exp = 0 then result
  else
    modExpLoop (if exp % 2 = 1 then result * base % m else result) (base * base % m) (exp / 2) m
termination_by exp
decreasing_by exact Nat.div_lt_self (Nat.pos_of_ne_zero _h) (by norm_num)

/-- Model of `modExp(base, exp, mod)` (lines 471-482): square-and-multiply;
every operand stays nonnegative. -/
def modExp (base exp m : Nat) : Nat := modExpLoop 1 base exp m

/-- Model of `Factorizer::checkPerfectSquare` (lines 730-752); `toFactor`
is the positive target `N`, `perfectSquare` the dependency-row key. -/
def checkPerfectSquare (toFactor perfectSquare : Nat) : Int :=
  let x := perfectSquare % toFactor
  let y := modExp x (toFactor / 2) toFactor
  let f1 := gcdInt toFactor ((x : Int) + (y : Int))
  if f1 ≠ 1 ∧ f1 ≠ (toFactor : Int) then f1
  else if x = y then 1
  else
    let f2 := gcdInt toFactor ((x : Int) - (y : Int))
    if f2 ≠ 1 ∧ f2 ≠ (toFactor : Int) then f2 else 1

theorem modExpLoop_step (result base exp m : Nat) (h : ¬ exp = 0) :
    modExpLoop result base exp m =
      modExpLoop (if exp % 2 = 1 then result * base % m else result)
        (base * base % m) (exp / 2) m := by
  rw [modExpLoop, dif_neg h]

theorem modExpLoop_zero (result base m : Nat) : modExpLoop result base 0 m = result := by
  rw [modExpLoop, dif_pos rfl]

theorem modExp_3_7_15 : modExp 3 7 15 = 12 := by
  rw [modExp, modExpLoop_step _ _ _ _ (by norm_num)]
  norm_num
  rw [modExpLoop_step _ _ _ _ (by norm_num)]
  norm_num
  rw [modExpLoop_step _ _ _ _ (by norm_num)]
  norm_num
  rw [modExpLoop_zero]

theorem gcdInt_15_15 : gcdInt 15 15 = 15 := by
  rw [gcdInt]; norm_num
  rw [gcdInt]; norm_num

/-- Euclid on a negative second argument: the truncated remainders keep
the sign of their dividend, and the final answer here is the negative
`-3` rather than the mathematical `gcd 15 9 = 3`. -/
theorem gcdInt_15_neg9 : gcdInt 15 (-9) = -3 := by
  rw [gcdInt]; norm_num
  rw [show Int.tmod 15 9 = 6 from by decide]
  rw [gcdInt]; norm_num
  rw [show Int.tmod (-9) 6 = -3 from by decide]
  rw [gcdInt]; norm_num
  rw [show Int.tmod 6 3 = 0 from by decide]
  rw [gcdInt]; norm_num

/-- C1.  The claim says every value the driver can return parses to `d`
with `d = 1` or `1 < d < N ∧ N mod d = 0` — in particular never a
negative value.  The cited guard `checkPerfectSquare` violates this: for
`N = 15` and a dependency-row key `≡ 3 (mod 15)` (key 18 here), `x = 3`,
`y = modExp(3, 7, 15) = 12`, `gcd(15, x+y) = 15` is rejected, and
`gcd(15, x−y) = gcd(15, −9)` evaluates to `−3`, which passes the
`factor != 1 && factor != toFactor` filter and is returned; `findFactor`
stores it into `result` and the driver's `while (result == 1 || result ==
toFactor)` loop accepts it, so `find_a_factor` would return the string
`"-3"`. -/
theorem c1_checkPerfectSquare_negative : checkPerfectSquare 15 18 = -3 := by
  rw [checkPerfectSquare]
  norm_num [modExp_3_7_15, gcdInt_15_15, gcdInt_15_neg9]

/-- The brute-force acceptance test, by contrast, does satisfy the C1
range property: `bruteForce` returns `n` only under
`toFactor % n == 0 && n != 1 && n != toFactor` (lines 544-547), and any
such `n` is a nontrivial divisor. -/
def bruteForceHit (toFactor n : Nat) : Prop :=
  toFactor % n = 0 ∧ n ≠ 1 ∧ n ≠ toFactor

theorem bruteForceHit_nontrivial (toFactor n : Nat) (hN : 0 < toFactor)
    (h : bruteForceHit toFactor n) : 1 < n ∧ n < toFactor ∧ n ∣ toFactor := by
  obtain ⟨hmod, h1, hN'⟩ := h
  have hdvd : n ∣ toFactor := Nat.dvd_of_mod_eq_zero hmod
  have hn0 : n ≠ 0 := by
    intro hz
    rw [hz] at hmod
    simp at hmod
    omega
  have hle : n ≤ toFactor := Nat.le_of_dvd hN hdvd
  refine ⟨by omega, by omega, hdvd⟩

/-! ### The wheel-factorized Sieve of Eratosthenes (lines 281-406)

`forward3 p = (p << 1) + (p & ~1) - 1` maps the index `p ≥ 1` to the
`p`-th positive integer coprime to 6 (`forward3 (2j+1) = 6j+1`,
`forward3 (2j+2) = 6j+5`); `backward5` maps an integer coprime to 30 to
its 1-based rank in the coprime-to-30 sequence, and indexes the sieve's
`notPrime` bitmap.  The sieve walks the coprime-to-6 indices while the
`{5,7}` gear registers (`wheel5 = 129`, a 10-bit rotor, and
`wheel7 = 9009416540524545`, a 56-bit rotor) skip the multiples of 5 and
7 on the fly, so the walked numbers are exactly the integers `> 1`
coprime to 210 in ascending order. -/

def wheel5 : List Nat := [1, 7, 11, 13, 17, 19, 23, 29]

/-- Model of `size_t forward3(p)`: `~(~p | 1)` clears the low bit. -/
def forward3 (p : Nat) : Nat := 2 * p + (p - p % 2) - 1

theorem le_forward3 (o : Nat) : o ≤ forward3 o := by
  unfold forward3; omega

theorem forward3_pos (o : Nat) (h : 1 ≤ o) : 1 ≤ forward3 o := by
  unfold forward3; omega

/-- Model of `size_t backward5(n)`:
`distance(wheel5, lower_bound(wheel5, n % 30)) + 8 * (n / 30) + 1`. -/
def backward5 (n : Nat) : Nat := lowerBound wheel5 (n % 30) + 8 * (n / 30) + 1

/-- The body of `GetWheel5and7Increment` (lines 281-304): pop the low bit
of `wheel5`, rotating a popped 1 back to bit 9 and retrying; otherwise
pop the low bit of `wheel7`, rotating a popped 1 back to bit 55; count
every pop of `wheel5` and stop as soon as both popped bits are 0.  The
C++ do-while has no syntactic bound; every register pair reachable in the
sieve pops a zero pair within at most 4 iterations (one period of the
joint gear state is 70 iterations, verified concretely below), so the
fuel 70 of `GetWheel5and7Increment` never runs out on reachable states.
-/
def stepAux : Nat → Nat → Nat → Nat → Nat × Nat × Nat
  | 0, inc, w5, w7 => (inc, w5, w7)
  | fuel+1, inc, w5, w7 =>
    if w5 % 2 = 1 then
      stepAux fuel (inc + 1) (w5 / 2 + 512) w7
    else
      if w7 % 2 = 1 then
        stepAux fuel (inc + 1) (w5 / 2) (w7 / 2 + 2 ^ 55)
      else
        (inc + 1, w5 / 2, w7 / 2)

theorem stepAux_fst_le (fuel inc w5 w7 : Nat) : inc ≤ (stepAux fuel inc w5 w7).1 := by
  induction fuel generalizing inc w5 w7 with
  | zero => simp [stepAux]
  | succ f ih =>
    simp only [stepAux]
    split
    · exact Nat.le_trans (Nat.le_succ inc) (ih (inc + 1) _ _)
    · split
      · exact Nat.le_trans (Nat.le_succ inc) (ih (inc + 1) _ _)
      · exact Nat.le_succ inc

theorem stepAux_fst_succ (f inc w5 w7 : Nat) : inc + 1 ≤ (stepAux (f + 1) inc w5 w7).1 := by
  simp only [stepAux]
  split
  · exact stepAux_fst_le f (inc + 1) _ _
  · split
    · exact stepAux_fst_le f (inc + 1) _ _
    · exact Nat.le_refl (inc + 1)

/-- Model of `GetWheel5and7Increment(wheel5, wheel7)`: the returned
increment together with the updated registers. -/
def GetWheel5and7Increment (w5 w7 : Nat) : Nat × Nat × Nat := stepAux 70 0 w5 w7

theorem one_le_increment (w5 w7 : Nat) : 1 ≤ (GetWheel5and7Increment w5 w7).1 :=
  stepAux_fst_succ 69 0 w5 w7

theorem le_of_sq_le {p n : Nat} (h : p * p ≤ n) : p ≤ n :=
  match p with
  | 0 => Nat.zero_le n
  | q+1 => Nat.le_trans (Nat.le_mul_of_pos_left (q + 1) (Nat.succ_pos q)) h

/-- The unrolled inner marking loop of the sieve (lines 371-387): mark
`i` when `i % 5 != 0`, advance by `p4`, stop past `n`, mark, advance by
`p2`, stop past `n`, repeat.  The bitmap is the function `marked`; the
entry precondition of the C++ loop is `i ≤ n`. -/
def markMain (n p4 p2 : Nat) (hp : 0 < p2) (i : Nat) (marked : Nat → Bool) : Nat → Bool :=
  let m1 := if i % 5 ≠ 0 then (fun ix => if ix = backward5 i then true else marked ix) else marked
  let i2 := i + p4
  if h2 : i2 > n then m1 else
  let m2 := if i2 % 5 ≠ 0 then (fun ix => if ix = backward5 i2 then true else m1 ix) else m1
  let i3 := i2 + p2
  if h3 : i3 > n then m2 else
  markMain n p4 p2 hp i3 m2
termination_by n + 1 - i
decreasing_by
  simp only [not_lt] at h2 h3
  omega

/-- The whole composite-marking pass for a freshly found prime `p`
(lines 350-387), including the `p % 3 == 2` half-iteration that marks
`p * p` and advances by `2p` before entering the main loop. -/
def markFor (n p : Nat) (hp : 0 < p) (marked : Nat → Bool) : Nat → Bool :=
  let p2 := p * 2
  let p4 := p * 4
  let i := p * p
  if p % 3 = 2 then
    let m1 := fun ix => if ix = backward5 i then true else marked ix
    let i' := i + p2
    if i' > n then m1 else markMain n p4 p2 (by omega) i' m1
  else
    markMain n p4 p2 (by omega) i marked

/-- The sieve's mutable state: the coprime-to-6 index `o`, the two gear
registers, the `notPrime` bitmap (indexed by `backward5`), and the primes
accumulated so far. -/
structure SieveSt where
  o : Nat
  w5 : Nat
  w7 : Nat
  marked : Nat → Bool
  acc : List Nat

def nextO (st : SieveSt) : Nat := st.o + (GetWheel5and7Increment st.w5 st.w7).1

def nextW5 (st : SieveSt) : Nat := (GetWheel5and7Increment st.w5 st.w7).2.1

def nextW7 (st : SieveSt) : Nat := (GetWheel5and7Increment st.w5 st.w7).2.2

theorem lt_nextO (st : SieveSt) : st.o < nextO st := by
  have := one_le_increment st.w5 st.w7
  unfold nextO
  omega

/-- The first sieve loop (lines 336-388): advance the gears, break once
`p * p > n` (leaving `o` pointing at the break position, as in the C++),
skip marked composites, and push-and-mark each unmarked prime. -/
def sieveLoop1 (n : Nat) (st : SieveSt) : SieveSt :=
  if h : (forward3 (nextO st)) * (forward3 (nextO st)) > n then
    { st with o := nextO st, w5 := nextW5 st, w7 := nextW7 st }
  else if st.marked (backward5 (forward3 (nextO st))) then
    sieveLoop1 n { st with o := nextO st, w5 := nextW5 st, w7 := nextW7 st }
  else
    sieveLoop1 n { o := nextO st, w5 := nextW5 st, w7 := nextW7 st,
                   marked := markFor n (forward3 (nextO st))
                     (forward3_pos _ (by have := lt_nextO st; omega)) st.marked,
                   acc := st.acc ++ [forward3 (nextO st)] }
termination_by n + 1 - st.o
decreasing_by
  all_goals
    simp only [not_lt] at h
    have h1 := lt_nextO st
    have h2 := le_forward3 (nextO st)
    have h3 : forward3 (nextO st) ≤ n := le_of_sq_le h
    omega

/-- The second sieve loop (lines 390-403): keep walking the same
enumeration, pushing every unmarked number up to `n`. -/
def sieveLoop2 (n : Nat) (st : SieveSt) : List Nat :=
  if h : forward3 st.o > n then st.acc
  else
    sieveLoop2 n { o := nextO st, w5 := nextW5 st, w7 := nextW7 st, marked := st.marked,
                   acc := if st.marked (backward5 (forward3 st.o)) then st.acc
                          else st.acc ++ [forward3 st.o] }
termination_by n + 1 - st.o
decreasing_by
  simp only [not_lt] at h
  have h1 := lt_nextO st
  have h2 := le_forward3 st.o
  omega

/-- Model of `SieveOfEratosthenes(n)` (lines 306-406).  For `n < 9` the
C++ returns the `upper_bound` prefix of the seed list `{2,3,5,7}`; the
bitmap allocation (`cardinality = backward5(n)`) is dropped because the
bitmap is a total function here (all marking indices fit below the C++
bound since `backward5` is monotone). -/
def SieveOfEratosthenes (n : Nat) : List Nat :=
  if n < 2 then []
  else if n < 9 then [2, 3, 5, 7].takeWhile (fun p => p ≤ n)
  else sieveLoop2 n (sieveLoop1 n ⟨1, 129, 9009416540524545, fun _ => false, [2, 3, 5, 7]⟩)

/-! ### Driver stages 2-3: trial division and the "effectively prime"
early return (lines 885-915) -/

/-- Model of line 886: `primeCeiling = (trialDivisionLevel < fullMaxBase)
? trialDivisionLevel : (size_t)fullMaxBase` — the cast of the `cpp_int`
square root to `size_t` wraps modulo `2^64`. -/
def primeCeiling (trialDivisionLevel toFactor : Nat) : Nat :=
  if trialDivisionLevel < sqrt toFactor then trialDivisionLevel
  else sqrt toFactor % 2 ^ 64

/-- Sequential model of the parallel trial-division loop (lines 896-911):
some prime of the list dividing `toFactor` if one exists, else 1.  (The
thread pool makes only the choice of which dividing prime wins
nondeterministic; whether `result` stays 1 is determined.) -/
def trialDivisionResult (toFactor : Nat) (primes : List Nat) : Nat :=
  (primes.find? (fun p => toFactor % p == 0)).getD 1

/-- Model of the return at line 913-915: `find_a_factor` returns at the
trial-division stage iff `result != 1` or `toFactor <= primeCeiling *
primeCeiling` (a `size_t` square, wrapping modulo `2^64`). -/
def trialStage (toFactor trialDivisionLevel : Nat) : Option Nat :=
  let pc := primeCeiling trialDivisionLevel toFactor
  let r := trialDivisionResult toFactor (SieveOfEratosthenes pc)
  if r ≠ 1 ∨ toFactor ≤ pc * pc % 2 ^ 64 then some r else none


theorem sqrt_five : sqrt 5 = 2 := by
  rw [sqrt, sqrtLoop]
  norm_num
  rw [sqrtLoop]
  norm_num

theorem sieve_two : SieveOfEratosthenes 2 = [2] := by decide

/-- The "effectively prime within budget" return (line 913) can fire with
`result = 1` only when `toFactor` is a perfect square: `primeCeiling ≤
⌊√toFactor⌋` in both branches of the clamp, so `primeCeiling² % 2^64 ≤
⌊√toFactor⌋² ≤ toFactor`, with equality only for squares.  Since perfect
squares already returned at stage 1, the check is unsatisfiable. -/
theorem trialStage_one_only_for_squares (toFactor trialDivisionLevel : Nat)
    (h2 : 2 ≤ toFactor)
    (hfire : toFactor ≤ primeCeiling trialDivisionLevel toFactor *
      primeCeiling trialDivisionLevel toFactor % 2 ^ 64) :
    sqrt toFactor * sqrt toFactor = toFactor := by
  obtain ⟨hs1, _⟩ := sqrt_le_and_lt toFactor h2
  have hpc : primeCeiling trialDivisionLevel toFactor ≤ sqrt toFactor := by
    rw [primeCeiling]
    split
    · omega
    · exact Nat.mod_le _ _
  have hsq : primeCeiling trialDivisionLevel toFactor *
      primeCeiling trialDivisionLevel toFactor ≤ sqrt toFactor * sqrt toFactor :=
    Nat.mul_le_mul hpc hpc
  have hmod : primeCeiling trialDivisionLevel toFactor *
      primeCeiling trialDivisionLevel toFactor % 2 ^ 64 ≤
      primeCeiling trialDivisionLevel toFactor * primeCeiling trialDivisionLevel toFactor :=
    Nat.mod_le _ _
  omega

/-- C3.  The claim says that for prime `N ≤ trialDivisionLevel²` the
driver returns `"1"` at the trial-division stage (`trial bound² ≥ N ⇒
return 1`).  The code instead compares `N` against `primeCeiling² =
min(trialDivisionLevel, ⌊√N⌋)²`, which is at most `⌊√N⌋² < N` for any
non-square `N`, so the stage never returns 1; at the failing input
`N = 5`, `trialDivisionLevel = 100` (5 prime, `5 ≤ 100²`), trial division
finds no divisor and the driver falls through to the wheel stage instead
of returning `"1"` there. -/
theorem c3_trial_stage_does_not_return : trialStage 5 100 = none ∧ Nat.Prime 5 ∧ 5 ≤ 100 * 100 := by
  refine ⟨?_, by norm_num, by norm_num⟩
  rw [trialStage, primeCeiling, sqrt_five]
  norm_num [sieve_two, trialDivisionResult]


/-- Smoothness over the factor base. -/
def Smooth (ps : List Nat) (n : Nat) : Prop := ∀ q : Nat, q.Prime → q ∣ n → q ∈ ps

def innerFlip : List Nat → Nat → Nat → (Nat → Bool) → (Nat → Bool)
  | [], _, _, vec => vec
  | p :: rest, i0, factor, vec =>
    if factor % p ≠ 0 then innerFlip rest (i0 + 1) factor vec
    else
      if factor / p = 1 then (fun j => if j = i0 then ! vec j else vec j)
      else innerFlip rest (i0 + 1) (factor / p) (fun j => if j = i0 then ! vec j else vec j)

def flipInd (l : List Nat) (i0 factor j : Nat) : Bool :=
  decide (i0 ≤ j ∧ j - i0 < l.length ∧ l.getD (j - i0) 1 ∣ factor)

theorem prod_factorization (ps : List Nat) (hps : ∀ p ∈ ps, Nat.Prime p) (hnd : ps.Nodup)
    (q : Nat) : (ps.prod).factorization q = if q ∈ ps then 1 else 0 := by
  induction ps with
  | nil => simp [Nat.factorization_one]
  | cons p t ih =>
    have hp : Nat.Prime p := hps p (List.mem_cons_self p t)
    have hpt : ∀ x ∈ t, Nat.Prime x := fun x hx => hps x (List.mem_cons_of_mem p hx)
    have hndt : t.Nodup := (List.nodup_cons.mp hnd).2
    have hpnt : p ∉ t := (List.nodup_cons.mp hnd).1
    have hp0 : p ≠ 0 := hp.pos.ne'
    have ht0 : t.prod ≠ 0 := (List.prod_pos (fun x hx => (hpt x hx).pos)).ne'
    rw [List.prod_cons, Nat.factorization_mul hp0 ht0]
    have hsingle : p.factorization q = if q = p then 1 else 0 := by
      rw [hp.factorization]
      classical
      simp [Finsupp.single_apply, eq_comm]
    rw [Finsupp.add_apply, hsingle, ih hpt hndt]
    by_cases hqp : q = p
    · subst hqp
      simp [hpnt, List.mem_cons]
    · simp [hqp, List.mem_cons]

theorem flipInd_nil (i0 factor j : Nat) : flipInd [] i0 factor j = false := by
  simp [flipInd]

theorem flipInd_cons_shift (p : Nat) (rest : List Nat) (i0 factor j : Nat)
    (hpd : ¬ p ∣ factor) :
    flipInd (p :: rest) i0 factor j = flipInd rest (i0 + 1) factor j := by
  rw [flipInd, flipInd, decide_eq_decide]
  constructor
  · rintro ⟨h1, h2, h3⟩
    rcases Nat.eq_or_lt_of_le h1 with he | hl
    · exfalso
      apply hpd
      have hz : j - i0 = 0 := by omega
      rwa [hz, List.getD_cons_zero] at h3
    · have harith : j - i0 = (j - (i0 + 1)) + 1 := by omega
      rw [harith, List.getD_cons_succ] at h3
      simp only [List.length_cons] at h2
      exact ⟨by omega, by omega, h3⟩
  · rintro ⟨h1, h2, h3⟩
    have harith : j - i0 = (j - (i0 + 1)) + 1 := by omega
    refine ⟨by omega, ?_, ?_⟩
    · simp only [List.length_cons]
      omega
    · rw [harith, List.getD_cons_succ]
      exact h3

theorem flipInd_self_true (p : Nat) (rest : List Nat) (i0 factor : Nat) (hpd : p ∣ factor) :
    flipInd (p :: rest) i0 factor i0 = true := by
  rw [flipInd, decide_eq_true_eq]
  refine ⟨Nat.le_refl i0, by simp, ?_⟩
  rw [Nat.sub_self, List.getD_cons_zero]
  exact hpd

/-- Pointwise behaviour of the inner division loop (lines 597-607): under
the loop's entry conditions (squarefree `factor ≥ 1` whose prime divisors
all lie in the remaining prime list `l`), bit `j` is flipped exactly when
`j` addresses a prime of `l` dividing `factor`. -/
theorem innerFlip_spec :
    ∀ (l : List Nat) (i0 factor : Nat) (vec : Nat → Bool),
      (∀ p ∈ l, Nat.Prime p) → l.Nodup → 1 ≤ factor →
      (∀ q : Nat, factor.factorization q ≤ 1) →
      (∀ q : Nat, q.Prime → q ∣ factor → q ∈ l) →
      ∀ j, innerFlip l i0 factor vec j = xor (vec j) (flipInd l i0 factor j)
  | [], i0, factor, vec, _, _, _, _, _, j => by
    simp [innerFlip, flipInd_nil]
  | p :: rest, i0, factor, vec, hl, hnd, hf1, hsf, hdiv, j => by
    have hp : Nat.Prime p := hl p (List.mem_cons_self p rest)
    have hrest : ∀ x ∈ rest, Nat.Prime x := fun x hx => hl x (List.mem_cons_of_mem p hx)
    have hndr : rest.Nodup := (List.nodup_cons.mp hnd).2
    have hpnr : p ∉ rest := (List.nodup_cons.mp hnd).1
    by_cases hpf : factor % p ≠ 0
    · -- p does not divide factor: skip to the rest of the list
      have hnd2 : ¬ p ∣ factor := by
        rw [Nat.dvd_iff_mod_eq_zero]
        exact hpf
      rw [innerFlip, if_pos hpf]
      rw [innerFlip_spec rest (i0 + 1) factor vec hrest hndr hf1 hsf
        (fun q hq hqd => by
          rcases List.mem_cons.mp (hdiv q hq hqd) with hqp | hqr
          · exact absurd (hqp ▸ hqd) hnd2
          · exact hqr) j]
      rw [flipInd_cons_shift p rest i0 factor j hnd2]
    · -- p divides factor
      push_neg at hpf
      have hpd : p ∣ factor := Nat.dvd_of_mod_eq_zero hpf
      have hfp : p * (factor / p) = factor := Nat.mul_div_cancel_left' hpd
      have hqiff : ∀ q ∈ rest, Nat.Prime q → (q ∣ factor / p ↔ q ∣ factor) := by
        intro q hq hqp
        have hqnp : q ≠ p := fun he => hpnr (he ▸ hq)
        constructor
        · intro hd
          exact Nat.dvd_trans hd (Nat.div_dvd_of_dvd hpd)
        · intro hd
          have hd2 : q ∣ p * (factor / p) := by
            rw [hfp]
            exact hd
          rcases (Nat.Prime.dvd_mul hqp).mp hd2 with h' | h'
          · exact absurd ((Nat.prime_dvd_prime_iff_eq hqp hp).mp h') hqnp
          · exact h'
      have hflipind : ∀ j, i0 ≠ j → flipInd (p :: rest) i0 factor j = flipInd rest (i0 + 1) (factor / p) j := by
        intro j hne
        rw [flipInd, flipInd, decide_eq_decide]
        constructor
        · rintro ⟨h1, h2, h3⟩
          have hl1 : i0 + 1 ≤ j := by omega
          have harith : j - i0 = (j - (i0 + 1)) + 1 := by omega
          rw [harith, List.getD_cons_succ] at h3
          simp only [List.length_cons] at h2
          have hk : j - (i0 + 1) < rest.length := by omega
          have hmem : rest.getD (j - (i0 + 1)) 1 ∈ rest := by
            rw [List.getD_eq_getElem rest 1 hk]
            exact List.getElem_mem hk
          refine ⟨hl1, hk, ?_⟩
          rw [hqiff _ hmem (hrest _ hmem)]
          exact h3
        · rintro ⟨h1, h2, h3⟩
          have harith : j - i0 = (j - (i0 + 1)) + 1 := by omega
          have hmem : rest.getD (j - (i0 + 1)) 1 ∈ rest := by
            rw [List.getD_eq_getElem rest 1 h2]
            exact List.getElem_mem h2
          refine ⟨by omega, by simp only [List.length_cons]; omega, ?_⟩
          rw [harith, List.getD_cons_succ]
          rw [hqiff _ hmem (hrest _ hmem)] at h3
          exact h3
      by_cases hbreak : factor / p = 1
      · -- factor == p: flip bit i0 and stop
        have hfp2 : factor = p := by
          rw [← hfp, hbreak, Nat.mul_one]
        rw [innerFlip, if_neg (by simpa using hpf), if_pos hbreak]
        by_cases hji : j = i0
        · subst hji
          rw [if_pos rfl, flipInd_self_true p rest j factor hpd]
          cases vec j <;> rfl
        · rw [if_neg hji]
          have hz : flipInd (p :: rest) i0 factor j = false := by
            rw [flipInd, decide_eq_false_iff_not]
            rintro ⟨h1, h2, h3⟩
            have hl1 : i0 + 1 ≤ j := by omega
            have harith : j - i0 = (j - (i0 + 1)) + 1 := by omega
            rw [harith, List.getD_cons_succ] at h3
            simp only [List.length_cons] at h2
            have hk : j - (i0 + 1) < rest.length := by omega
            have hmem : rest.getD (j - (i0 + 1)) 1 ∈ rest := by
              rw [List.getD_eq_getElem rest 1 hk]
              exact List.getElem_mem hk
            have hqp : Nat.Prime (rest.getD (j - (i0 + 1)) 1) := hrest _ hmem
            rw [hfp2] at h3
            exact hpnr (((Nat.prime_dvd_prime_iff_eq hqp hp).mp h3) ▸ hmem)
          rw [hz]
          cases vec j <;> rfl
      · -- factor' = factor / p, keep going with the flipped vector
        have hfq1 : 1 ≤ factor / p := Nat.pos_of_ne_zero (fun h0 => by
          rw [h0, Nat.mul_zero] at hfp
          omega)
        have hsf' : ∀ q : Nat, (factor / p).factorization q ≤ 1 := by
          intro q
          rw [Nat.factorization_div hpd]
          have := hsf q
          simp only [Finsupp.tsub_apply]
          omega
        have hpnd : ¬ p ∣ factor / p := by
          intro hd
          have h2 : p * p ∣ factor := by
            rcases hd with ⟨c, hc⟩
            exact ⟨c, by rw [← hfp, hc]; ring⟩
          have h3 : 2 ≤ factor.factorization p := by
            rw [← Nat.Prime.pow_dvd_iff_le_factorization hp (by omega)]
            simpa [Nat.pow_two] using h2
          exact absurd (hsf p) (by omega)
        have hdiv' : ∀ q : Nat, q.Prime → q ∣ factor / p → q ∈ rest := by
          intro q hq hqd
          have hqf : q ∣ factor := Nat.dvd_trans hqd (Nat.div_dvd_of_dvd hpd)
          rcases List.mem_cons.mp (hdiv q hq hqf) with hqp2 | hqr
          · exact absurd (hqp2 ▸ hqd) hpnd
          · exact hqr
        rw [innerFlip, if_neg (by simpa using hpf), if_neg hbreak]
        rw [innerFlip_spec rest (i0 + 1) (factor / p)
          (fun j => if j = i0 then ! vec j else vec j) hrest hndr hfq1 hsf' hdiv' j]
        by_cases hji : j = i0
        · subst hji
          rw [if_pos rfl, flipInd_self_true p rest j factor hpd]
          have hz : flipInd rest (j + 1) (factor / p) j = false := by
            rw [flipInd, decide_eq_false_iff_not]
            rintro ⟨h1, -⟩
            omega
          rw [hz]
          cases vec j <;> rfl
        · rw [if_neg hji, hflipind j (fun he => hji he.symm)]

/-- Model of the outer while-loop of `factorizationVector` (lines
588-617).  `R` is `wheelRadius`, the product of the factor-base primes.
The C++ loop never terminates on `num = 0` (the gcd stays `R`); 0 cannot
reach this loop (`forwardFn` values are ≥ 1), and the model maps that
divergence to the failure sentinel. -/
def fvLoop (ps : List Nat) (R : Nat) (num : Nat) (vec : Nat → Bool) : Option (Nat → Bool) :=
  if h0 : num = 0 then none
  else if h1 : Nat.gcd num R = 1 then (if num = 1 then some vec else none)
  else if h2 : num / Nat.gcd num R = 1 then some (innerFlip ps 0 (Nat.gcd num R) vec)
  else fvLoop ps R (num / Nat.gcd num R) (innerFlip ps 0 (Nat.gcd num R) vec)
termination_by num
decreasing_by
  have hg0 : Nat.gcd num R ≠ 0 := fun hz => h0 (Nat.eq_zero_of_gcd_eq_zero_left hz)
  exact Nat.div_lt_self (Nat.pos_of_ne_zero h0) (by omega)

theorem gcd_prod_factorization (ps : List Nat) (hps : ∀ p ∈ ps, Nat.Prime p)
    (hnd : ps.Nodup) (num : Nat) (h0 : num ≠ 0) (q : Nat) :
    (Nat.gcd num ps.prod).factorization q =
      min (num.factorization q) (if q ∈ ps then 1 else 0) := by
  have hprod0 : ps.prod ≠ 0 := (List.prod_pos (fun x hx => (hps x hx).pos)).ne'
  rw [Nat.factorization_gcd h0 hprod0]
  rw [Finsupp.inf_apply]
  rw [prod_factorization ps hps hnd q]

theorem gcd_prod_dvd_iff (ps : List Nat) (hps : ∀ p ∈ ps, Nat.Prime p)
    (hnd : ps.Nodup) (num : Nat) (h0 : num ≠ 0) (q : Nat) (hq : Nat.Prime q) :
    q ∣ Nat.gcd num ps.prod ↔ q ∈ ps ∧ q ∣ num := by
  have hg0 : Nat.gcd num ps.prod ≠ 0 := fun hz => h0 (Nat.eq_zero_of_gcd_eq_zero_left hz)
  rw [Nat.Prime.dvd_iff_one_le_factorization hq hg0,
    gcd_prod_factorization ps hps hnd num h0 q,
    Nat.Prime.dvd_iff_one_le_factorization hq h0]
  by_cases hmem : q ∈ ps
  · simp only [hmem, if_true, true_and]
    constructor
    · intro h
      exact le_trans h inf_le_left
    · intro h
      exact le_inf h (le_refl 1)
  · simp only [hmem, if_false, false_and]
    constructor
    · intro h
      exact absurd (le_trans h inf_le_right) (by omega)
    · exact False.elim

theorem gcd_prod_sf (ps : List Nat) (hps : ∀ p ∈ ps, Nat.Prime p)
    (hnd : ps.Nodup) (num : Nat) (h0 : num ≠ 0) (q : Nat) :
    (Nat.gcd num ps.prod).factorization q ≤ 1 := by
  rw [gcd_prod_factorization ps hps hnd num h0 q]
  split <;> omega

theorem fvLoop_spec (ps : List Nat) (hps : ∀ p ∈ ps, Nat.Prime p) (hnd : ps.Nodup) :
    ∀ (num : Nat) (vec : Nat → Bool), 1 ≤ num →
      (¬ Smooth ps num → fvLoop ps ps.prod num vec = none) ∧
      (Smooth ps num → fvLoop ps ps.prod num vec = some (fun i =>
        xor (vec i) (decide (i < ps.length ∧
          num.factorization (ps.getD i 1) % 2 = 1)))) := by
  intro num
  induction num using Nat.strong_induction_on with
  | _ num ih =>
  intro vec hn
  have h0 : num ≠ 0 := by omega
  rw [fvLoop, dif_neg h0]
  by_cases h1 : Nat.gcd num ps.prod = 1
  · rw [dif_pos h1]
    by_cases hone : num = 1
    · subst hone
      rw [if_pos rfl]
      constructor
      · intro hns
        exact absurd (fun q hq hqd => absurd (Nat.dvd_one.mp hqd) hq.ne_one) hns
      · intro _
        congr 1
        funext i
        simp [Nat.factorization_one]
    · rw [if_neg hone]
      obtain ⟨q, hq, hqd⟩ := Nat.exists_prime_and_dvd hone
      have hqnot : q ∉ ps := by
        intro hmem
        have hq1 : q ∣ Nat.gcd num ps.prod := Nat.dvd_gcd hqd (List.dvd_prod hmem)
        rw [h1] at hq1
        exact hq.ne_one (Nat.dvd_one.mp hq1)
      constructor
      · intro _
        rfl
      · intro hs
        exact absurd (hs q hq hqd) hqnot
  · rw [dif_neg h1]
    have hdvd : Nat.gcd num ps.prod ∣ num := Nat.gcd_dvd_left num ps.prod
    have hd0 : Nat.gcd num ps.prod ≠ 0 := fun hz => h0 (Nat.eq_zero_of_gcd_eq_zero_left hz)
    have hd2 : 2 ≤ Nat.gcd num ps.prod := by omega
    have hnum' : 1 ≤ num / Nat.gcd num ps.prod :=
      (Nat.one_le_div_iff (by omega)).mpr (Nat.le_of_dvd (by omega) hdvd)
    have hvec : ∀ j, innerFlip ps 0 (Nat.gcd num ps.prod) vec j =
        xor (vec j) (flipInd ps 0 (Nat.gcd num ps.prod) j) :=
      innerFlip_spec ps 0 (Nat.gcd num ps.prod) vec hps hnd (by omega)
        (gcd_prod_sf ps hps hnd num h0)
        (fun q hq hqd => ((gcd_prod_dvd_iff ps hps hnd num h0 q hq).mp hqd).1)
    have hgetmem : ∀ i, i < ps.length → ps.getD i 1 ∈ ps := by
      intro i hi
      rw [List.getD_eq_getElem ps 1 hi]
      exact List.getElem_mem hi
    have hflip : ∀ i, flipInd ps 0 (Nat.gcd num ps.prod) i =
        decide (i < ps.length ∧ ps.getD i 1 ∣ num) := by
      intro i
      rw [flipInd, decide_eq_decide]
      constructor
      · rintro ⟨-, h2, h3⟩
        rw [Nat.sub_zero] at h2 h3
        exact ⟨h2, ((gcd_prod_dvd_iff ps hps hnd num h0 _
          (hps _ (hgetmem i h2))).mp h3).2⟩
      · rintro ⟨h2, h3⟩
        refine ⟨Nat.zero_le i, ?_, ?_⟩
        · rwa [Nat.sub_zero]
        · rw [Nat.sub_zero]
          exact (gcd_prod_dvd_iff ps hps hnd num h0 _
            (hps _ (hgetmem i h2))).mpr ⟨hgetmem i h2, h3⟩
    have hfact : ∀ i, i < ps.length →
        (num / Nat.gcd num ps.prod).factorization (ps.getD i 1) =
          num.factorization (ps.getD i 1) - (if ps.getD i 1 ∣ num then 1 else 0) := by
      intro i hi
      have hmem := hgetmem i hi
      have hp := hps _ hmem
      rw [Nat.factorization_div hdvd]
      rw [Finsupp.tsub_apply]
      rw [gcd_prod_factorization ps hps hnd num h0]
      by_cases hdv : ps.getD i 1 ∣ num
      · have h1e : 1 ≤ num.factorization (ps.getD i 1) :=
          (Nat.Prime.dvd_iff_one_le_factorization hp h0).mp hdv
        rw [if_pos hmem, if_pos hdv]
        congr 1
        exact inf_eq_right.mpr h1e
      · have h0e : num.factorization (ps.getD i 1) = 0 := by
          rcases Nat.eq_zero_or_pos (num.factorization (ps.getD i 1)) with hz | hpos
          · exact hz
          · exact absurd ((Nat.Prime.dvd_iff_one_le_factorization hp h0).mpr hpos) hdv
        rw [if_pos hmem, if_neg hdv, h0e]
        rfl
    have hsm1 : Smooth ps num → Smooth ps (num / Nat.gcd num ps.prod) :=
      fun hs q hq hqd => hs q hq (hqd.trans (Nat.div_dvd_of_dvd hdvd))
    have hsm2 : ¬ Smooth ps num → ¬ Smooth ps (num / Nat.gcd num ps.prod) := by
      intro hns hs'
      apply hns
      intro q hq hqd
      by_contra hqnot
      have hqnd : ¬ q ∣ Nat.gcd num ps.prod :=
        fun hcon => hqnot ((gcd_prod_dvd_iff ps hps hnd num h0 q hq).mp hcon).1
      have hfd : (Nat.gcd num ps.prod).factorization q = 0 := by
        rw [gcd_prod_factorization ps hps hnd num h0 q, if_neg hqnot]
        exact inf_eq_right.mpr (Nat.zero_le _)
      have hfq : (num / Nat.gcd num ps.prod).factorization q =
          num.factorization q := by
        rw [Nat.factorization_div hdvd, Finsupp.tsub_apply, hfd]
        omega
      have hnum'0 : num / Nat.gcd num ps.prod ≠ 0 := by omega
      have hq1 : 1 ≤ num.factorization q :=
        (Nat.Prime.dvd_iff_one_le_factorization hq h0).mp hqd
      have : q ∣ num / Nat.gcd num ps.prod :=
        (Nat.Prime.dvd_iff_one_le_factorization hq hnum'0).mpr (by omega)
      exact hqnot (hs' q hq this)
    by_cases h2 : num / Nat.gcd num ps.prod = 1
    · rw [dif_pos h2]
      have hnum_eq : num = Nat.gcd num ps.prod := by
        have hm := Nat.mul_div_cancel' hdvd
        rw [h2, Nat.mul_one] at hm
        omega
      have hsmooth : Smooth ps num := by
        intro q hq hqd
        rw [hnum_eq] at hqd
        exact ((gcd_prod_dvd_iff ps hps hnd num h0 q hq).mp hqd).1
      constructor
      · intro hns
        exact absurd hsmooth hns
      · intro _
        congr 1
        funext i
        rw [hvec i, hflip i]
        congr 1
        rw [decide_eq_decide]
        by_cases hi : i < ps.length
        · have hmem := hgetmem i hi
          have hp := hps _ hmem
          have hsf : num.factorization (ps.getD i 1) ≤ 1 := by
            rw [hnum_eq]
            exact gcd_prod_sf ps hps hnd num h0 _
          constructor
          · rintro ⟨-, hdv⟩
            have h1e : 1 ≤ num.factorization (ps.getD i 1) :=
              (Nat.Prime.dvd_iff_one_le_factorization hp h0).mp hdv
            exact ⟨hi, by omega⟩
          · rintro ⟨-, hpar⟩
            refine ⟨hi, (Nat.Prime.dvd_iff_one_le_factorization hp h0).mpr (by omega)⟩
        · constructor
          · rintro ⟨hi2, -⟩
            exact absurd hi2 hi
          · rintro ⟨hi2, -⟩
            exact absurd hi2 hi
    · rw [dif_neg h2]
      have hlt : num / Nat.gcd num ps.prod < num := Nat.div_lt_self (by omega) hd2
      obtain ⟨ihn, ihs⟩ := ih (num / Nat.gcd num ps.prod) hlt
        (innerFlip ps 0 (Nat.gcd num ps.prod) vec) hnum'
      constructor
      · intro hns
        exact ihn (hsm2 hns)
      · intro hs
        rw [ihs (hsm1 hs)]
        congr 1
        funext i
        rw [hvec i, hflip i]
        by_cases hi : i < ps.length
        · have hmem := hgetmem i hi
          have hp := hps _ hmem
          have hf := hfact i hi
          by_cases hdv : ps.getD i 1 ∣ num
          · have h1e : 1 ≤ num.factorization (ps.getD i 1) :=
              (Nat.Prime.dvd_iff_one_le_factorization hp h0).mp hdv
            rw [if_pos hdv] at hf
            rcases Nat.mod_two_eq_zero_or_one (num.factorization (ps.getD i 1)) with hpar | hpar
            · have hpar' : (num / Nat.gcd num ps.prod).factorization (ps.getD i 1) % 2 = 1 := by
                omega
              rw [List.getD_eq_getElem ps 1 hi] at hdv hpar hpar'
              simp [hi, hdv, hpar, hpar']
            · have hpar' : (num / Nat.gcd num ps.prod).factorization (ps.getD i 1) % 2 = 0 := by
                omega
              rw [List.getD_eq_getElem ps 1 hi] at hdv hpar hpar'
              simp [hi, hdv, hpar, hpar']
          · rw [if_neg hdv] at hf
            have hf2 : (num / Nat.gcd num ps.prod).factorization (ps.getD i 1) =
                num.factorization (ps.getD i 1) := by omega
            rw [hf2]
            rw [List.getD_eq_getElem ps 1 hi] at hdv
            simp [hi, hdv]
        · simp [hi]

/-- The factor-base product accumulated by the Factorizer constructor
(line 518): `wheelRadius *= p` over the factor base. -/
def wheelRadius (ps : List Nat) : Nat := ps.prod

/-- Model of `Factorizer::factorizationVector(num)` (lines 588-617):
`none` models the returned empty bitset (the failure sentinel read as
`fv.size() == 0` by `makeSmoothNumbers`; for a nonempty factor base a
successful vector has positive size, so the two are distinguishable
exactly as in the source). -/
def factorizationVector (ps : List Nat) (num : Nat) : Option (Nat → Bool) :=
  fvLoop ps (wheelRadius ps) num (fun _ => false)

theorem factorizationVector_cases (ps : List Nat) (hps : ∀ p ∈ ps, Nat.Prime p)
    (hnd : ps.Nodup) (n : Nat) (hn : 1 ≤ n) :
    (¬ Smooth ps n → factorizationVector ps n = none) ∧
      (Smooth ps n → factorizationVector ps n = some (fun i =>
        decide (i < ps.length ∧ n.factorization (ps.getD i 1) % 2 = 1))) := by
  obtain ⟨hnone, hsome⟩ := fvLoop_spec ps hps hnd n (fun _ => false) hn
  constructor
  · intro hns
    rw [factorizationVector, wheelRadius]
    exact hnone hns
  · intro hs
    rw [factorizationVector, wheelRadius, hsome hs]
    congr 1
    funext i
    simp

/-- A smooth record is well formed when its key is a positive product of
factor-base primes and its bitset is the key's exponent vector modulo 2
over the factor base. -/
def RowOk (ps : List Nat) (key : Nat) (v : Nat → Bool) : Prop :=
  0 < key ∧ Smooth ps key ∧
    ∀ i, i < ps.length → v i = decide (key.factorization (ps.getD i 1) % 2 = 1)

theorem factorizationVector_RowOk (ps : List Nat) (hps : ∀ p ∈ ps, Nat.Prime p)
    (hnd : ps.Nodup) (n : Nat) (v : Nat → Bool)
    (h : factorizationVector ps n = some v) : RowOk ps n v := by
  have hn : 1 ≤ n := by
    by_contra hz
    have hz0 : n = 0 := by omega
    subst hz0
    rw [factorizationVector, fvLoop, dif_pos rfl] at h
    exact Option.noConfusion h
  obtain ⟨hnone, hsome⟩ := fvLoop_spec ps hps hnd n (fun _ => false) hn
  by_cases hs : Smooth ps n
  · rw [factorizationVector, wheelRadius, hsome hs] at h
    have hv := (Option.some.inj h).symm
    refine ⟨by omega, hs, ?_⟩
    intro i hi
    rw [hv]
    simp [hi]
  · rw [factorizationVector, wheelRadius, hnone hs] at h
    exact Option.noConfusion h

theorem decide_parity_xor (a b : Nat) :
    (decide (a % 2 = 1) ^^ decide (b % 2 = 1)) = decide ((a + b) % 2 = 1) := by
  rcases Nat.mod_two_eq_zero_or_one a with h1 | h1 <;>
    rcases Nat.mod_two_eq_zero_or_one b with h2 | h2
  · rw [h1, h2, show (a + b) % 2 = 0 from by omega]
    decide
  · rw [h1, h2, show (a + b) % 2 = 1 from by omega]
    decide
  · rw [h1, h2, show (a + b) % 2 = 1 from by omega]
    decide
  · rw [h1, h2, show (a + b) % 2 = 0 from by omega]
    decide

theorem RowOk_mul (ps : List Nat) {k1 k2 : Nat} {v1 v2 : Nat → Bool}
    (h1 : RowOk ps k1 v1) (h2 : RowOk ps k2 v2) :
    RowOk ps (k1 * k2) (fun i => xor (v1 i) (v2 i)) := by
  obtain ⟨hp1, hs1, hb1⟩ := h1
  obtain ⟨hp2, hs2, hb2⟩ := h2
  refine ⟨Nat.mul_pos hp1 hp2, ?_, ?_⟩
  · intro q hq hqd
    rcases (Nat.Prime.dvd_mul hq).mp hqd with h | h
    · exact hs1 q hq h
    · exact hs2 q hq h
  · intro i hi
    show xor (v1 i) (v2 i) = decide ((k1 * k2).factorization (ps.getD i 1) % 2 = 1)
    rw [hb1 i hi, hb2 i hi]
    rw [Nat.factorization_mul (by omega) (by omega), Finsupp.add_apply]
    exact decide_parity_xor _ _

theorem RowOk_one (ps : List Nat) : RowOk ps 1 (fun _ => false) := by
  refine ⟨Nat.one_pos, ?_, ?_⟩
  · intro q hq hqd
    exact absurd (Nat.dvd_one.mp hqd) hq.ne_one
  · intro i hi
    simp [Nat.factorization_one]

/-- The accumulation loop of `makeSmoothNumbers` (lines 638-659): run
down the (shuffled) list of successfully factorized smooth parts,
XOR-accumulating their vectors into `fv` and multiplying their values
into the running product, emitting `(product, fv)` whenever the product
exceeds `limit` and then resetting.  The shuffle and the per-thread
buffering make the traversal order a parameter of the model. -/
def makeSmoothAppends (fvOf : Nat → Nat → Bool) (limit : Nat) :
    List Nat → Nat → (Nat → Bool) → List (Nat × (Nat → Bool))
  | [], _, _ => []
  | sp :: rest, acc, fv =>
    if acc * sp ≤ limit then
      makeSmoothAppends fvOf limit rest (acc * sp) (fun i => xor (fv i) (fvOf sp i))
    else
      (acc * sp, fun i => xor (fv i) (fvOf sp i)) ::
        makeSmoothAppends fvOf limit rest 1 (fun _ => false)

theorem makeSmoothAppends_RowOk (ps : List Nat) (fvOf : Nat → Nat → Bool) (limit : Nat) :
    ∀ (parts : List Nat) (acc : Nat) (fv : Nat → Bool),
      (∀ sp ∈ parts, RowOk ps sp (fvOf sp)) → RowOk ps acc fv →
      ∀ pr ∈ makeSmoothAppends fvOf limit parts acc fv, RowOk ps pr.1 pr.2 := by
  intro parts
  induction parts with
  | nil =>
    intro acc fv _ _ pr hpr
    exact absurd hpr (by simp [makeSmoothAppends])
  | cons sp rest ih =>
    intro acc fv hparts hacc pr hpr
    have hsp : RowOk ps sp (fvOf sp) := hparts sp (List.mem_cons_self sp rest)
    have hrest : ∀ x ∈ rest, RowOk ps x (fvOf x) :=
      fun x hx => hparts x (List.mem_cons_of_mem sp hx)
    have hmul := RowOk_mul ps hacc hsp
    rw [makeSmoothAppends] at hpr
    by_cases hlim : acc * sp ≤ limit
    · rw [if_pos hlim] at hpr
      exact ih (acc * sp) _ hrest hmul pr hpr
    · rw [if_neg hlim] at hpr
      rcases List.mem_cons.mp hpr with heq | hmem
      · subst heq
        exact hmul
      · exact ih 1 _ hrest (RowOk_one ps) pr hmem

/-! ### Gaussian elimination over GF(2)
(`Factorizer::gaussianElimination`, lines 667-728)

The parallel vectors `smoothNumberValues`/`smoothNumberKeys` are the
fields `M` (row, column ↦ bit) and `K` (row ↦ key) below; `R` is the row
count.  For each column: find the first row at or below the diagonal
with the column bit set, swap it into the diagonal position in both
vectors, then for every other row with the column bit set XOR in the
pivot row and multiply in the pivot key.  The dispatcher parallelizes
the update over disjoint row classes with the pivot row untouched, so
its effect equals the pure simultaneous update written here. -/

structure GaussSt where
  M : Nat → Nat → Bool
  K : Nat → Nat

/-- The pivot scan (lines 676-690): first row in `[col, R)` whose bit
`col` is set. -/
def pivotSearch (M : Nat → Nat → Bool) (R col : Nat) : Option Nat :=
  (List.range' col (R - col)).find? (fun r => M r col)

/-- `std::swap` of two vector entries. -/
def swapIdx {α : Type} (f : Nat → α) (i j : Nat) : Nat → α :=
  fun r => if r = i then f j else if r = j then f i else f r

/-- One column pass of `gaussianElimination`. -/
def gaussStep (R : Nat) (st : GaussSt) (col : Nat) : GaussSt :=
  match pivotSearch st.M R col with
  | none => st
  | some r0 =>
    { M := fun r j => if r < R ∧ r ≠ col ∧ swapIdx st.M col r0 r col then
             xor (swapIdx st.M col r0 r j) (swapIdx st.M col r0 col j)
           else swapIdx st.M col r0 r j,
      K := fun r => if r < R ∧ r ≠ col ∧ swapIdx st.M col r0 r col then
             swapIdx st.K col r0 r * swapIdx st.K col r0 col
           else swapIdx st.K col r0 r }

/-- Model of `Factorizer::gaussianElimination()`: the column loop over
`[0, primes.size())`. -/
def gaussianElimination (R C : Nat) (st : GaussSt) : GaussSt :=
  (List.range C).foldl (gaussStep R) st

/-- After the passes for all columns below `c`, no row other than the
diagonal one keeps a bit in those columns at or below the diagonal. -/
def ElimInv (R : Nat) (M : Nat → Nat → Bool) (c : Nat) : Prop :=
  ∀ colp, colp < c → ∀ r, r < R → colp ≤ r → r ≠ colp → M r colp = false

theorem pivotSearch_none (M : Nat → Nat → Bool) (R col : Nat)
    (h : pivotSearch M R col = none) :
    ∀ r, col ≤ r → r < R → M r col = false := by
  intro r h1 h2
  have hmem : r ∈ List.range' col (R - col) := by
    rw [List.mem_range'_1]
    omega
  have := List.find?_eq_none.mp h r hmem
  simpa using this

theorem pivotSearch_some (M : Nat → Nat → Bool) (R col r0 : Nat)
    (h : pivotSearch M R col = some r0) :
    col ≤ r0 ∧ r0 < R ∧ M r0 col = true := by
  have hmem := List.mem_of_find?_eq_some h
  have hp := List.find?_some h
  rw [List.mem_range'_1] at hmem
  exact ⟨by omega, by omega, hp⟩

theorem gaussStep_ElimInv (R : Nat) (st : GaussSt) (c : Nat)
    (h : ElimInv R st.M c) : ElimInv R (gaussStep R st c).M (c + 1) := by
  rw [gaussStep]
  rcases hpiv : pivotSearch st.M R c with _ | r0
  · -- no pivot for this column
    intro colp hcp r hrR hcr hne
    rcases Nat.lt_or_ge colp c with hlt | hge
    · exact h colp hlt r hrR hcr hne
    · have hcol : colp = c := by omega
      subst hcol
      exact pivotSearch_none st.M R colp hpiv r hcr hrR
  · obtain ⟨hcr0, hr0R, hMr0⟩ := pivotSearch_some st.M R c r0 hpiv
    have hcR : c < R := by omega
    -- the swapped matrix still satisfies the invariant for columns < c
    have hM1 : ∀ colp, colp < c → ∀ r, r < R → colp ≤ r → r ≠ colp →
        swapIdx st.M c r0 r colp = false := by
      intro colp hcp r hrR hcr hne
      rw [swapIdx]
      by_cases h1 : r = c
      · rw [if_pos h1]
        exact h colp hcp r0 hr0R (by omega) (by omega)
      · rw [if_neg h1]
        by_cases h2 : r = r0
        · rw [if_pos h2]
          exact h colp hcp c hcR (by omega) (by omega)
        · rw [if_neg h2]
          exact h colp hcp r hrR hcr hne
    have hM1cc : swapIdx st.M c r0 c c = true := by
      rw [swapIdx, if_pos rfl]
      exact hMr0
    intro colp hcp r hrR hcr hne
    simp only []
    rcases Nat.lt_or_ge colp c with hlt | hge
    · -- an older column: the pivot row has bit colp clear, so updates keep it clear
      have hrow : swapIdx st.M c r0 r colp = false := hM1 colp hlt r hrR hcr hne
      have hpivrow : swapIdx st.M c r0 c colp = false :=
        hM1 colp hlt c hcR (by omega) (by omega)
      by_cases hcond : r < R ∧ r ≠ c ∧ swapIdx st.M c r0 r c = true
      · rw [if_pos hcond, hrow, hpivrow]
        rfl
      · rw [if_neg hcond]
        exact hrow
    · -- the new column c itself
      have hcol : colp = c := by omega
      rw [hcol] at hne ⊢
      by_cases hbit : swapIdx st.M c r0 r c = true
      · rw [if_pos ⟨hrR, hne, hbit⟩, hbit, hM1cc]
        rfl
      · rw [if_neg (fun hcond => hbit hcond.2.2)]
        exact Bool.not_eq_true _ |>.mp hbit

theorem gauss_fold_ElimInv (R : Nat) (st : GaussSt) (C : Nat) :
    ElimInv R (gaussianElimination R C st).M C := by
  induction C with
  | zero =>
    intro colp hcp
    omega
  | succ n ih =>
    rw [gaussianElimination, List.range_succ, List.foldl_append, List.foldl_cons,
      List.foldl_nil]
    exact gaussStep_ElimInv R (gaussianElimination R n st) n ih

theorem gaussStep_RowsOk (ps : List Nat) (R : Nat) (st : GaussSt) (c : Nat)
    (h : ∀ r, r < R → RowOk ps (st.K r) (st.M r)) :
    ∀ r, r < R → RowOk ps ((gaussStep R st c).K r) ((gaussStep R st c).M r) := by
  rw [gaussStep]
  rcases hpiv : pivotSearch st.M R c with _ | r0
  · exact h
  · obtain ⟨hcr0, hr0R, hMr0⟩ := pivotSearch_some st.M R c r0 hpiv
    have hcR : c < R := by omega
    have hswap : ∀ r, r < R → RowOk ps (swapIdx st.K c r0 r) (swapIdx st.M c r0 r) := by
      intro r hrR
      rw [swapIdx, swapIdx]
      by_cases h1 : r = c
      · rw [if_pos h1, if_pos h1]
        exact h r0 hr0R
      · rw [if_neg h1, if_neg h1]
        by_cases h2 : r = r0
        · rw [if_pos h2, if_pos h2]
          exact h c hcR
        · rw [if_neg h2, if_neg h2]
          exact h r hrR
    intro r hrR
    simp only []
    by_cases hcond : r < R ∧ r ≠ c ∧ swapIdx st.M c r0 r c = true
    · rw [if_pos hcond]
      have hrow : (fun j => if r < R ∧ r ≠ c ∧ swapIdx st.M c r0 r c = true then
          xor (swapIdx st.M c r0 r j) (swapIdx st.M c r0 c j)
          else swapIdx st.M c r0 r j) =
          fun j => xor (swapIdx st.M c r0 r j) (swapIdx st.M c r0 c j) := by
        funext j
        rw [if_pos hcond]
      rw [hrow]
      exact RowOk_mul ps (hswap r hrR) (hswap c hcR)
    · rw [if_neg hcond]
      have hrow : (fun j => if r < R ∧ r ≠ c ∧ swapIdx st.M c r0 r c = true then
          xor (swapIdx st.M c r0 r j) (swapIdx st.M c r0 c j)
          else swapIdx st.M c r0 r j) = fun j => swapIdx st.M c r0 r j := by
        funext j
        rw [if_neg hcond]
      rw [hrow]
      exact hswap r hrR

theorem gauss_fold_RowsOk (ps : List Nat) (R C : Nat) (st : GaussSt)
    (h : ∀ r, r < R → RowOk ps (st.K r) (st.M r)) :
    ∀ r, r < R → RowOk ps ((gaussianElimination R C st).K r)
      ((gaussianElimination R C st).M r) := by
  induction C with
  | zero => exact h
  | succ n ih =>
    rw [gaussianElimination, List.range_succ, List.foldl_append, List.foldl_cons,
      List.foldl_nil]
    exact gaussStep_RowsOk ps R (gaussianElimination R n st) n ih

theorem seed_RowOk (ps : List Nat) (hps : ∀ p ∈ ps, Nat.Prime p) (hnd : ps.Nodup) :
    ∀ r, r < ps.length → RowOk ps (ps.getD r 1) (fun i => decide (i = r)) := by
  intro r hr
  have hmem : ps.getD r 1 ∈ ps := by
    rw [List.getD_eq_getElem ps 1 hr]
    exact List.getElem_mem hr
  have hp := hps _ hmem
  refine ⟨hp.pos, ?_, ?_⟩
  · intro q hq hqd
    exact ((Nat.prime_dvd_prime_iff_eq hq hp).mp hqd) ▸ hmem
  · intro i hi
    show decide (i = r) = _
    rw [hp.factorization]
    classical
    rw [Finsupp.single_apply]
    by_cases hij : i = r
    · subst hij
      simp
    · have hne2 : ps.getD r 1 ≠ ps.getD i 1 := by
        rw [List.getD_eq_getElem ps 1 hr, List.getD_eq_getElem ps 1 hi]
        intro he
        exact hij ((List.Nodup.getElem_inj_iff hnd).mp he).symm
      rw [if_neg hne2]
      simp [hij]

/-- C6.  After `gaussianElimination` returns, every non-pivot row with
index `i > |factor base|` (the column count `C`) has an all-zero bit
vector: every bit below the factor-base width is false. -/
theorem c6_nonpivot_rows_zero (R C : Nat) (st : GaussSt) (i : Nat)
    (hCi : C < i) (hiR : i < R) (j : Nat) (hj : j < C) :
    (gaussianElimination R C st).M i j = false :=
  gauss_fold_ElimInv R st C j hj i hiR (by omega) (by omega)

/-- C6 witness: the theorem applied to the all-ones 3-row, 1-column
matrix at non-pivot row 2. -/
theorem c6_witness :
    1 < 2 ∧ 2 < 3 ∧ 0 < 1 ∧
      (gaussianElimination 3 1 ⟨fun _ _ => true, fun _ => 2⟩).M 2 0 = false :=
  ⟨by norm_num, by norm_num, by norm_num,
   c6_nonpivot_rows_zero 3 1 ⟨fun _ _ => true, fun _ => 2⟩ 2 (by norm_num) (by norm_num)
     0 (by norm_num)⟩

/-- C7.  The parallel-vector invariant: (1) it holds for the seed rows
`(pᵢ, eᵢ)` installed by the constructor; (2) every pair appended by the
`makeSmoothNumbers` accumulation satisfies it (the XOR of part vectors
matches the product of parts), given that every part carries the vector
computed by `factorizationVector`; (3) it is preserved by every row swap
and row combination of `gaussianElimination`. -/
theorem c7_smooth_record_invariant (ps : List Nat) (hps : ∀ p ∈ ps, Nat.Prime p)
    (hnd : ps.Nodup) :
    (∀ r, r < ps.length → RowOk ps (ps.getD r 1) (fun i => decide (i = r))) ∧
      (∀ (fvOf : Nat → Nat → Bool) (limit : Nat) (parts : List Nat),
        (∀ sp ∈ parts, factorizationVector ps sp = some (fvOf sp)) →
        ∀ pr ∈ makeSmoothAppends fvOf limit parts 1 (fun _ => false),
          RowOk ps pr.1 pr.2) ∧
      (∀ (R C : Nat) (st : GaussSt), (∀ r, r < R → RowOk ps (st.K r) (st.M r)) →
        ∀ r, r < R → RowOk ps ((gaussianElimination R C st).K r)
          ((gaussianElimination R C st).M r)) := by
  refine ⟨seed_RowOk ps hps hnd, ?_, gauss_fold_RowsOk ps⟩
  intro fvOf limit parts hparts
  exact makeSmoothAppends_RowOk ps fvOf limit parts 1 (fun _ => false)
    (fun sp hsp => factorizationVector_RowOk ps hps hnd sp (fvOf sp) (hparts sp hsp))
    (RowOk_one ps)

/-- C7 witness: the theorem applied at the two-prime factor base [2, 3].
-/
theorem c7_witness :
    (∀ p ∈ [2, 3], Nat.Prime p) ∧ ([2, 3] : List Nat).Nodup ∧
      ((∀ r, r < ([2, 3] : List Nat).length →
          RowOk [2, 3] (([2, 3] : List Nat).getD r 1) (fun i => decide (i = r))) ∧
        (∀ (fvOf : Nat → Nat → Bool) (limit : Nat) (parts : List Nat),
          (∀ sp ∈ parts, factorizationVector [2, 3] sp = some (fvOf sp)) →
          ∀ pr ∈ makeSmoothAppends fvOf limit parts 1 (fun _ => false),
            RowOk [2, 3] pr.1 pr.2) ∧
        (∀ (R C : Nat) (st : GaussSt),
          (∀ r, r < R → RowOk [2, 3] (st.K r) (st.M r)) →
          ∀ r, r < R → RowOk [2, 3] ((gaussianElimination R C st).K r)
            ((gaussianElimination R C st).M r))) :=
  ⟨by
    intro p hp
    rcases List.mem_cons.mp hp with h | h
    · rw [h]; norm_num
    · rw [List.mem_singleton] at h; rw [h]; norm_num,
   by simp,
   c7_smooth_record_invariant [2, 3]
     (by
       intro p hp
       rcases List.mem_cons.mp hp with h | h
       · rw [h]; norm_num
       · rw [List.mem_singleton] at h; rw [h]; norm_num)
     (by simp)⟩

/-- C8.  For every `n ≥ 1` over a factor base of distinct primes,
`factorizationVector n` returns the empty bitset (`none`) iff `n` is not
a product of factor-base primes, and a successful vector has bit `i`
equal to the parity of the exponent of the `i`-th base prime in `n`. -/
theorem c8_factorizationVector_spec (ps : List Nat) (hps : ∀ p ∈ ps, Nat.Prime p)
    (hnd : ps.Nodup) (n : Nat) (hn : 1 ≤ n) :
    (factorizationVector ps n = none ↔ ¬ Smooth ps n) ∧
      ∀ v, factorizationVector ps n = some v →
        ∀ i, i < ps.length → v i = decide (n.factorization (ps.getD i 1) % 2 = 1) := by
  obtain ⟨hnone, hsome⟩ := factorizationVector_cases ps hps hnd n hn
  constructor
  · constructor
    · intro heq hs
      rw [hsome hs] at heq
      exact Option.noConfusion heq
    · exact hnone
  · intro v hv i hi
    by_cases hs : Smooth ps n
    · rw [hsome hs] at hv
      rw [← Option.some.inj hv]
      simp [hi]
    · rw [hnone hs] at hv
      exact Option.noConfusion hv

/-- C8 witness: the theorem applied at base [2, 3] and `n = 12`. -/
theorem c8_witness :
    (∀ p ∈ [2, 3], Nat.Prime p) ∧ ([2, 3] : List Nat).Nodup ∧ 1 ≤ 12 ∧
      ((factorizationVector [2, 3] 12 = none ↔ ¬ Smooth [2, 3] 12) ∧
        ∀ v, factorizationVector [2, 3] 12 = some v →
          ∀ i, i < ([2, 3] : List Nat).length →
            v i = decide ((12 : Nat).factorization (([2, 3] : List Nat).getD i 1) % 2 = 1)) :=
  ⟨by
    intro p hp
    rcases List.mem_cons.mp hp with h | h
    · rw [h]; norm_num
    · rw [List.mem_singleton] at h; rw [h]; norm_num,
   by simp, by norm_num,
   c8_factorizationVector_spec [2, 3]
     (by
       intro p hp
       rcases List.mem_cons.mp hp with h | h
       · rw [h]; norm_num
       · rw [List.mem_singleton] at h; rw [h]; norm_num)
     (by simp) 12 (by norm_num)⟩


theorem mem_wheel5_iff : ∀ r, r < 30 → (r ∈ wheel5 ↔ (r % 2 = 1 ∧ r % 3 ≠ 0 ∧ r % 5 ≠ 0)) := by
  decide

theorem wheel5_countLt_mono :
    ∀ a ∈ wheel5, ∀ b ∈ wheel5, a < b → lowerBound wheel5 a < lowerBound wheel5 b := by
  decide

theorem wheel5_countLt_le : ∀ a ∈ wheel5, lowerBound wheel5 a ≤ 7 := by
  decide

theorem backward5_strictMono {v w : Nat}
    (hv : v % 2 = 1 ∧ v % 3 ≠ 0 ∧ v % 5 ≠ 0) (hw : w % 2 = 1 ∧ w % 3 ≠ 0 ∧ w % 5 ≠ 0)
    (hlt : v < w) : backward5 v < backward5 w := by
  have hva : v % 30 ∈ wheel5 :=
    (mem_wheel5_iff (v % 30) (Nat.mod_lt v (by norm_num))).mpr (by omega)
  have hwa : w % 30 ∈ wheel5 :=
    (mem_wheel5_iff (w % 30) (Nat.mod_lt w (by norm_num))).mpr (by omega)
  unfold backward5
  rcases Nat.lt_trichotomy (v / 30) (w / 30) with hq | hq | hq
  · have h1 := wheel5_countLt_le (v % 30) hva
    omega
  · have hmod : v % 30 < w % 30 := by omega
    have := wheel5_countLt_mono (v % 30) hva (w % 30) hwa hmod
    omega
  · omega

theorem backward5_inj {v w : Nat}
    (hv : v % 2 = 1 ∧ v % 3 ≠ 0 ∧ v % 5 ≠ 0) (hw : w % 2 = 1 ∧ w % 3 ≠ 0 ∧ w % 5 ≠ 0)
    (h : backward5 v = backward5 w) : v = w := by
  rcases Nat.lt_trichotomy v w with hlt | he | hlt
  · exact absurd h (Nat.ne_of_lt (backward5_strictMono hv hw hlt))
  · exact he
  · exact absurd h.symm (Nat.ne_of_lt (backward5_strictMono hw hv hlt))

theorem forward3_mono {p q : Nat} (h : p ≤ q) : forward3 p ≤ forward3 q := by
  unfold forward3; omega

theorem forward3_strictMono {p q : Nat} (hp : 1 ≤ p) (h : p < q) : forward3 p < forward3 q := by
  unfold forward3; omega

theorem forward3_coprime6 (o : Nat) (h : 1 ≤ o) : forward3 o % 2 = 1 ∧ forward3 o % 3 ≠ 0 := by
  unfold forward3; omega

theorem forward3_add_70 (o : Nat) (h : 1 ≤ o) : forward3 (o + 70) = forward3 o + 210 := by
  unfold forward3; omega

theorem exists_forward3 (v : Nat) (hv : v % 2 = 1 ∧ v % 3 ≠ 0) :
    ∃ o, 1 ≤ o ∧ forward3 o = v := by
  have h6 : v % 6 = 1 ∨ v % 6 = 5 := by omega
  rcases h6 with h | h
  · exact ⟨2 * ((v - 1) / 6) + 1, by omega, by unfold forward3; omega⟩
  · exact ⟨2 * ((v - 5) / 6) + 2, by omega, by unfold forward3; omega⟩

/-- The gear position is valid when the pointed-to integer is skipped by
neither the `wheel5` nor the `wheel7` rotor: `forward3 o` is divisible
by neither 5 nor 7. -/
def visOK (o : Nat) : Prop := forward3 o % 5 ≠ 0 ∧ forward3 o % 7 ≠ 0

theorem visOK_add_70 (o : Nat) (h : 1 ≤ o) : visOK (o + 70) ↔ visOK o := by
  unfold visOK
  rw [forward3_add_70 o h]
  omega

theorem visOK_add_70mul (o q : Nat) (h : 1 ≤ o) : visOK (o + 70 * q) ↔ visOK o := by
  induction q with
  | zero => rfl
  | succ k ih =>
    have : o + 70 * (k + 1) = (o + 70 * k) + 70 := by ring
    rw [this, visOK_add_70 (o + 70 * k) (by omega)]
    exact ih

theorem visOK_congr {a b : Nat} (ha : 1 ≤ a) (hb : 1 ≤ b) (hmod : a % 70 = b % 70) :
    visOK a ↔ visOK b := by
  rcases Nat.le_total a b with hle | hle
  · have hq : b = a + 70 * ((b - a) / 70) := by omega
    rw [hq]
    exact (visOK_add_70mul a _ ha).symm
  · have hq : a = b + 70 * ((a - b) / 70) := by omega
    rw [hq]
    exact visOK_add_70mul b _ hb

/-- The joint cycle of the two gear registers from the seed
`(129, 9009416540524545)`: 48 states per 70 coprime-to-6 steps, each
entry holding the normalized position residue `(o - 1) % 70 + 1` and
the two register values. -/
def gearTable : List (Nat × Nat × Nat) := [
  (1, 129, 9009416540524545),
  (4, 144, 20266752644613120),
  (5, 72, 10133376322306560),
  (6, 36, 5066688161153280),
  (7, 18, 2533344080576640),
  (8, 9, 1266672040288320),
  (10, 258, 633336020144160),
  (11, 129, 316668010072080),
  (13, 288, 158334005036040),
  (14, 144, 79167002518020),
  (15, 72, 39583501259010),
  (16, 36, 19791750629505),
  (18, 9, 18019346447139360),
  (20, 258, 9009673223569680),
  (21, 129, 4504836611784840),
  (23, 288, 2252418305892420),
  (24, 144, 1126209152946210),
  (25, 72, 563104576473105),
  (27, 18, 18155174653600260),
  (28, 9, 9077587326800130),
  (30, 258, 4538793663400065),
  (33, 288, 19149096925332000),
  (34, 144, 9574548462666000),
  (35, 72, 4787274231333000),
  (36, 36, 2393637115666500),
  (37, 18, 1196818557833250),
  (38, 9, 598409278916625),
  (41, 129, 18164000829211140),
  (43, 288, 9082000414605570),
  (44, 144, 4541000207302785),
  (46, 36, 19149648561307680),
  (47, 18, 9574824280653840),
  (48, 9, 4787412140326920),
  (50, 258, 2393706070163460),
  (51, 129, 1196853035081730),
  (53, 288, 598426517540865),
  (55, 72, 18164005138867200),
  (56, 36, 9082002569433600),
  (57, 18, 4541001284716800),
  (58, 9, 2270500642358400),
  (60, 258, 1135250321179200),
  (61, 129, 567625160589600),
  (63, 288, 283812580294800),
  (64, 144, 141906290147400),
  (65, 72, 70953145073700),
  (66, 36, 35476572536850),
  (67, 18, 17738286268425),
  (70, 258, 18018833081049090)
]

def gearR (k : Nat) : Nat := (gearTable.getD k (0, 0, 0)).1

def gearW5 (k : Nat) : Nat := (gearTable.getD k (0, 0, 0)).2.1

def gearW7 (k : Nat) : Nat := (gearTable.getD k (0, 0, 0)).2.2

def gearInc (k : Nat) : Nat := (GetWheel5and7Increment (gearW5 k) (gearW7 k)).1

theorem gear_step_regs : ∀ k, k < 48 →
    (GetWheel5and7Increment (gearW5 k) (gearW7 k)).2.1 = gearW5 ((k + 1) % 48) ∧
    (GetWheel5and7Increment (gearW5 k) (gearW7 k)).2.2 = gearW7 ((k + 1) % 48) := by
  decide

theorem gear_step_res : ∀ k, k < 48 →
    (gearR k + gearInc k - 1) % 70 + 1 = gearR ((k + 1) % 48) := by
  decide

theorem gear_inc_bounds : ∀ k, k < 48 → 1 ≤ gearInc k ∧ gearInc k ≤ 3 := by
  decide

theorem gear_r_bounds : ∀ k, k < 48 → 1 ≤ gearR k ∧ gearR k ≤ 70 := by
  decide

theorem gear_vis : ∀ k, k < 48 →
    (∀ d, d < gearInc k → 0 < d →
      ¬(forward3 (gearR k + d) % 5 ≠ 0 ∧ forward3 (gearR k + d) % 7 ≠ 0)) ∧
    (forward3 (gearR k + gearInc k) % 5 ≠ 0 ∧ forward3 (gearR k + gearInc k) % 7 ≠ 0) := by
  decide

/-- The gear invariant: the registers and the position's residue mod 70
agree with one of the 48 canonical cycle states. -/
def GearInv (o w5 w7 : Nat) : Prop :=
  1 ≤ o ∧ ∃ k, k < 48 ∧ gearR k = (o - 1) % 70 + 1 ∧ gearW5 k = w5 ∧ gearW7 k = w7

theorem GearInv_init : GearInv 1 129 9009416540524545 :=
  ⟨Nat.le_refl 1, 0, by omega, by decide, by decide, by decide⟩

theorem GearInv_next (st : SieveSt) (h : GearInv st.o st.w5 st.w7) :
    GearInv (nextO st) (nextW5 st) (nextW7 st) ∧ visOK (nextO st) ∧
      ∀ x, st.o < x → x < nextO st → ¬visOK x := by
  obtain ⟨ho, k, hk, hr, hw5, hw7⟩ := h
  have hrb := gear_r_bounds k hk
  have hib := gear_inc_bounds k hk
  have hregs := gear_step_regs k hk
  have hres := gear_step_res k hk
  have hvis := gear_vis k hk
  have hmod : st.o % 70 = gearR k % 70 := by omega
  have hinc : (GetWheel5and7Increment st.w5 st.w7).1 = gearInc k := by
    rw [← hw5, ← hw7]; rfl
  refine ⟨⟨by have := lt_nextO st; omega, (k + 1) % 48, Nat.mod_lt _ (by norm_num), ?_, ?_, ?_⟩,
    ?_, ?_⟩
  · rw [← hres]
    unfold nextO
    rw [hinc]
    omega
  · rw [← hregs.1, nextW5, hw5, hw7]
  · rw [← hregs.2, nextW7, hw5, hw7]
  · have h1 : visOK (gearR k + gearInc k) := hvis.2
    have h2 : nextO st % 70 = (gearR k + gearInc k) % 70 := by
      unfold nextO
      rw [hinc]
      omega
    exact (visOK_congr (by have := lt_nextO st; omega) (by omega) h2).mpr h1
  · intro x hx1 hx2
    have hd : x = st.o + (x - st.o) := by omega
    have hdlt : x - st.o < gearInc k := by
      have : nextO st = st.o + gearInc k := by unfold nextO; rw [hinc]
      omega
    have h1 : ¬visOK (gearR k + (x - st.o)) := hvis.1 (x - st.o) hdlt (by omega)
    have h2 : x % 70 = (gearR k + (x - st.o)) % 70 := by omega
    exact fun hv => h1 ((visOK_congr (by omega) (by omega) h2).mp hv)

theorem filter_range_split (P : Nat → Bool) (A B : Nat) (hAB : A ≤ B) :
    (List.range B).filter P = (List.range A).filter P ++ (List.range' A (B - A)).filter P := by
  have h := List.range'_append 0 A (B - A) 1
  rw [Nat.one_mul, Nat.zero_add, show B - A + A = B from by omega] at h
  rw [List.range_eq_range', List.range_eq_range', ← List.filter_append]
  congr 1
  exact h.symm

theorem filter_range'_nil (P : Nat → Bool) (A len : Nat)
    (h : ∀ x, A ≤ x → x < A + len → P x = false) :
    (List.range' A len).filter P = [] := by
  rw [List.filter_eq_nil_iff]
  intro a ha
  rw [List.mem_range'_1] at ha
  simp [h a ha.1 ha.2]

theorem filter_range'_single (P : Nat → Bool) (v len : Nat) (h1 : 1 ≤ len)
    (hv : P v = true) (h : ∀ x, v < x → x < v + len → P x = false) :
    (List.range' v len).filter P = [v] := by
  have hd : len = (len - 1) + 1 := by omega
  rw [hd, List.range'_succ, List.filter_cons, hv, if_pos rfl,
    filter_range'_nil P (v + 1) (len - 1) (fun x hx1 hx2 => h x (by omega) (by omega))]

theorem ge11_of_mods {x : Nat} (h2x : 2 ≤ x) (h2 : x % 2 = 1) (h3 : x % 3 ≠ 0)
    (h5 : x % 5 ≠ 0) (h7 : x % 7 ≠ 0) : 11 ≤ x := by
  by_contra hc
  push_neg at hc
  interval_cases x <;> omega

theorem mod2_mul_oneary {a b : Nat} (ha : a % 2 = 1) (hb : b % 2 = 1) : a * b % 2 = 1 := by
  rw [Nat.mul_mod, ha, hb]

theorem mod3_mul_ne {a b : Nat} (ha : a % 3 ≠ 0) (hb : b % 3 ≠ 0) : a * b % 3 ≠ 0 := by
  have h1 : a % 3 = 1 ∨ a % 3 = 2 := by omega
  have h2 : b % 3 = 1 ∨ b % 3 = 2 := by omega
  rw [Nat.mul_mod]
  rcases h1 with h1 | h1 <;> rcases h2 with h2 | h2 <;> rw [h1, h2] <;> decide

/-- A prime not below 11 is coprime to the full wheel span 210. -/
theorem prime_ge11_cop210 {p : Nat} (hp : Nat.Prime p) (h11 : 11 ≤ p) :
    p % 2 = 1 ∧ p % 3 ≠ 0 ∧ p % 5 ≠ 0 ∧ p % 7 ≠ 0 := by
  have h2 : ¬(2 ∣ p) := fun hd => by rcases hp.eq_one_or_self_of_dvd 2 hd with h | h <;> omega
  have h3 : ¬(3 ∣ p) := fun hd => by rcases hp.eq_one_or_self_of_dvd 3 hd with h | h <;> omega
  have h5 : ¬(5 ∣ p) := fun hd => by rcases hp.eq_one_or_self_of_dvd 5 hd with h | h <;> omega
  have h7 : ¬(7 ∣ p) := fun hd => by rcases hp.eq_one_or_self_of_dvd 7 hd with h | h <;> omega
  rw [Nat.dvd_iff_mod_eq_zero] at h2 h3 h5 h7
  omega

/-- A product `p * m` with `p` a prime at least 11 and `m ≥ p` is never prime. -/
theorem not_prime_mul {p m : Nat} (hp : Nat.Prime p) (h11 : 11 ≤ p) (hm : p ≤ m) :
    ¬Nat.Prime (p * m) := by
  intro hpm
  rcases hpm.eq_one_or_self_of_dvd p ⟨m, rfl⟩ with h | h
  · omega
  · have hm1 : m = 1 := by
      have : p * m = p * 1 := by omega
      exact Nat.eq_of_mul_eq_mul_left (by omega) this
    omega

/-- Factoring a composite member of the wheel-210 coprime class into its
least prime factor (at least 11) and a coprime-to-6 cofactor of equal or
larger size. -/
theorem cop210_composite_split {v : Nat}
    (hv : v % 2 = 1 ∧ v % 3 ≠ 0 ∧ v % 5 ≠ 0 ∧ v % 7 ≠ 0) (h11 : 11 ≤ v)
    (hcomp : ¬Nat.Prime v) :
    ∃ p m, Nat.Prime p ∧ 11 ≤ p ∧ p ≤ m ∧ (m % 6 = 1 ∨ m % 6 = 5) ∧ p * m = v ∧ p < v := by
  have hne1 : v ≠ 1 := by omega
  have hp : Nat.Prime v.minFac := Nat.minFac_prime hne1
  have hdvd : v.minFac ∣ v := Nat.minFac_dvd v
  obtain ⟨m, hm⟩ := hdvd
  have hsq : v.minFac ^ 2 ≤ v := Nat.minFac_sq_le_self (by omega) hcomp
  have hple : v.minFac ≤ m := by
    have h0 : 0 < v.minFac := hp.pos
    have : v.minFac * v.minFac ≤ v.minFac * m := by
      rw [← hm]
      calc v.minFac * v.minFac = v.minFac ^ 2 := by ring
        _ ≤ v := hsq
    exact Nat.le_of_mul_le_mul_left this h0
  have hdd : ∀ d, d ∣ v.minFac → d ∣ v := fun d hd => hd.trans ⟨m, hm⟩
  have hmdvd : m ∣ v := Dvd.intro_left v.minFac hm.symm
  have hdm : ∀ d, d ∣ m → d ∣ v := fun d hd => hd.trans hmdvd
  have hp2 : v.minFac % 2 = 1 := by
    have := hdd 2
    rw [Nat.dvd_iff_mod_eq_zero, Nat.dvd_iff_mod_eq_zero] at this
    omega
  have hp3 : v.minFac % 3 ≠ 0 := by
    have := hdd 3
    rw [Nat.dvd_iff_mod_eq_zero, Nat.dvd_iff_mod_eq_zero] at this
    omega
  have hp5 : v.minFac % 5 ≠ 0 := by
    have := hdd 5
    rw [Nat.dvd_iff_mod_eq_zero, Nat.dvd_iff_mod_eq_zero] at this
    omega
  have hp7 : v.minFac % 7 ≠ 0 := by
    have := hdd 7
    rw [Nat.dvd_iff_mod_eq_zero, Nat.dvd_iff_mod_eq_zero] at this
    omega
  have hp11 : 11 ≤ v.minFac := ge11_of_mods hp.two_le hp2 hp3 hp5 hp7
  have hm2 : m % 2 = 1 := by
    have := hdm 2
    rw [Nat.dvd_iff_mod_eq_zero, Nat.dvd_iff_mod_eq_zero] at this
    omega
  have hm3 : m % 3 ≠ 0 := by
    have := hdm 3
    rw [Nat.dvd_iff_mod_eq_zero, Nat.dvd_iff_mod_eq_zero] at this
    omega
  refine ⟨v.minFac, m, hp, hp11, hple, by omega, hm.symm, ?_⟩
  calc v.minFac < v.minFac * 2 := by omega
    _ ≤ v.minFac * m := Nat.mul_le_mul_left _ (by omega)
    _ = v := hm.symm

theorem condMark_iff (i : Nat) (marked : Nat → Bool) (ix : Nat) :
    ((if i % 5 ≠ 0 then (fun j => if j = backward5 i then true else marked j) else marked) ix
        = true)
      ↔ (marked ix = true ∨ (i % 5 ≠ 0 ∧ ix = backward5 i)) := by
  by_cases h5 : i % 5 ≠ 0
  · rw [if_pos h5]
    by_cases hix : ix = backward5 i
    · simp [hix, h5]
    · simp [hix]
  · rw [if_neg h5]
    simp [h5]

set_option maxRecDepth 4000 in
/-- What the inner marking loop marks, entered at `i = p * m0` with
`m0 ≡ 1 (mod 6)`: the positions of all `p * m ≤ n` with `m ≥ m0` coprime
to 6 whose product avoids the dropped residues mod 5. -/
theorem markMain_spec (n p : Nat) (hp1 : 1 ≤ p) :
    ∀ fuel m0 marked, n + 1 - p * m0 ≤ fuel → m0 % 6 = 1 → p * m0 ≤ n →
      ∀ ix, (markMain n (p * 4) (p * 2) (by omega) (p * m0) marked) ix = true ↔
        (marked ix = true ∨ ∃ m, m0 ≤ m ∧ (m % 6 = 1 ∨ m % 6 = 5) ∧ p * m ≤ n ∧
          p * m % 5 ≠ 0 ∧ backward5 (p * m) = ix) := by
  intro fuel
  induction fuel with
  | zero =>
    intro m0 marked hf hm0 hle ix
    omega
  | succ f ih =>
    intro m0 marked hf hm0 hle ix
    have e2 : p * m0 + p * 4 = p * (m0 + 4) := by ring
    have e3 : p * m0 + p * 4 + p * 2 = p * (m0 + 6) := by ring
    have e6 : p * (m0 + 6) = p * m0 + p * 6 := by ring
    have e4 : p * (m0 + 4) = p * m0 + p * 4 := by ring
    rw [markMain]
    dsimp only
    rw [e3, e2]
    by_cases h2 : p * (m0 + 4) > n
    · rw [dif_pos h2, condMark_iff]
      constructor
      · rintro (h | ⟨h5, hix⟩)
        · exact Or.inl h
        · exact Or.inr ⟨m0, Nat.le_refl m0, Or.inl hm0, hle, h5, hix.symm⟩
      · rintro (h | ⟨m, hm, hcop, hmn, h5, hback⟩)
        · exact Or.inl h
        · have hm0m : m = m0 ∨ m0 + 4 ≤ m := by omega
          rcases hm0m with rfl | hge
          · exact Or.inr ⟨h5, hback.symm⟩
          · exfalso
            have : p * (m0 + 4) ≤ p * m := Nat.mul_le_mul_left p hge
            omega
    · rw [dif_neg h2]
      by_cases h3 : p * (m0 + 6) > n
      · rw [dif_pos h3, condMark_iff, condMark_iff]
        constructor
        · rintro ((h | ⟨h5, hix⟩) | ⟨h5, hix⟩)
          · exact Or.inl h
          · exact Or.inr ⟨m0, Nat.le_refl m0, Or.inl hm0, hle, h5, hix.symm⟩
          · exact Or.inr ⟨m0 + 4, by omega, Or.inr (by omega), by omega, h5, hix.symm⟩
        · rintro (h | ⟨m, hm, hcop, hmn, h5, hback⟩)
          · exact Or.inl (Or.inl h)
          · have hm0m : m = m0 ∨ m = m0 + 4 ∨ m0 + 6 ≤ m := by omega
            rcases hm0m with rfl | rfl | hge
            · exact Or.inl (Or.inr ⟨h5, hback.symm⟩)
            · exact Or.inr ⟨h5, hback.symm⟩
            · exfalso
              have : p * (m0 + 6) ≤ p * m := Nat.mul_le_mul_left p hge
              omega
      · rw [dif_neg h3]
        rw [ih (m0 + 6) _ (by omega) (by omega) (by omega) ix]
        rw [condMark_iff, condMark_iff]
        constructor
        · rintro (((h | ⟨h5, hix⟩) | ⟨h5, hix⟩) | ⟨m, hm, hcop, hmn, h5, hback⟩)
          · exact Or.inl h
          · exact Or.inr ⟨m0, Nat.le_refl m0, Or.inl hm0, hle, h5, hix.symm⟩
          · exact Or.inr ⟨m0 + 4, by omega, Or.inr (by omega), by omega, h5, hix.symm⟩
          · exact Or.inr ⟨m, by omega, hcop, hmn, h5, hback⟩
        · rintro (h | ⟨m, hm, hcop, hmn, h5, hback⟩)
          · exact Or.inl (Or.inl (Or.inl h))
          · have hm0m : m = m0 ∨ m = m0 + 4 ∨ m0 + 6 ≤ m := by omega
            rcases hm0m with rfl | rfl | hge
            · exact Or.inl (Or.inl (Or.inr ⟨h5, hback.symm⟩))
            · exact Or.inl (Or.inr ⟨h5, hback.symm⟩)
            · exact Or.inr ⟨m, hge, hcop, hmn, h5, hback⟩

/-- What one whole marking pass for a freshly found prime `p` marks: the
positions of all multiples `p * m ≤ n` with `m ≥ p` coprime to 6 whose
product avoids the dropped residues mod 5. -/
theorem markFor_spec (n p : Nat) (hp1 : 1 ≤ p) (hcop : p % 6 = 1 ∨ p % 6 = 5)
    (h5p : p % 5 ≠ 0) (hsq : p * p ≤ n) (marked : Nat → Bool) (ix : Nat) :
    (markFor n p (by omega) marked) ix = true ↔
      (marked ix = true ∨ ∃ m, p ≤ m ∧ (m % 6 = 1 ∨ m % 6 = 5) ∧ p * m ≤ n ∧
        p * m % 5 ≠ 0 ∧ backward5 (p * m) = ix) := by
  have h5pp : p * p % 5 ≠ 0 := by
    intro hdv
    have h5 : (5 : Nat) ∣ p * p := Nat.dvd_iff_mod_eq_zero.mpr hdv
    rcases (Nat.Prime.dvd_mul (by norm_num)).mp h5 with h | h <;>
      exact h5p (Nat.dvd_iff_mod_eq_zero.mp h)
  simp only [markFor]
  by_cases h3 : p % 3 = 2
  · rw [if_pos h3]
    have hp6 : p % 6 = 5 := by omega
    have e2 : p * p + p * 2 = p * (p + 2) := by ring
    rw [e2]
    by_cases hio : p * (p + 2) > n
    · rw [if_pos hio]
      constructor
      · intro hix
        by_cases hb : ix = backward5 (p * p)
        · exact Or.inr ⟨p, Nat.le_refl p, Or.inr hp6, hsq, h5pp, hb.symm⟩
        · rw [if_neg hb] at hix
          exact Or.inl hix
      · rintro (h | ⟨m, hm, hcop', hmn, h5, hback⟩)
        · by_cases hb : ix = backward5 (p * p)
          · rw [if_pos hb]
          · rw [if_neg hb]; exact h
        · have hm0m : m = p ∨ p + 2 ≤ m := by omega
          rcases hm0m with heq | hge
          · rw [heq] at hback
            rw [if_pos hback.symm]
          · exfalso
            have : p * (p + 2) ≤ p * m := Nat.mul_le_mul_left p hge
            omega
    · rw [if_neg hio]
      rw [markMain_spec n p hp1 (n + 1 - p * (p + 2)) (p + 2) _ (Nat.le_refl _)
        (by omega) (by omega) ix]
      constructor
      · rintro (h | ⟨m, hm, hcop', hmn, h5, hback⟩)
        · by_cases hb : ix = backward5 (p * p)
          · exact Or.inr ⟨p, Nat.le_refl p, Or.inr hp6, hsq, h5pp, hb.symm⟩
          · rw [if_neg hb] at h
            exact Or.inl h
        · exact Or.inr ⟨m, by omega, hcop', hmn, h5, hback⟩
      · rintro (h | ⟨m, hm, hcop', hmn, h5, hback⟩)
        · left
          by_cases hb : ix = backward5 (p * p)
          · rw [if_pos hb]
          · rw [if_neg hb]; exact h
        · have hm0m : m = p ∨ p + 2 ≤ m := by omega
          rcases hm0m with heq | hge
          · left
            rw [heq] at hback
            rw [if_pos hback.symm]
          · exact Or.inr ⟨m, hge, hcop', hmn, h5, hback⟩
  · rw [if_neg h3]
    have hp61 : p % 6 = 1 := by omega
    rw [markMain_spec n p hp1 (n + 1 - p * p) p marked (Nat.le_refl _) hp61 hsq ix]

theorem forward3_ge11 (o : Nat) (h : 4 ≤ o) : 11 ≤ forward3 o := by
  unfold forward3; omega

theorem nextO_ge4 (st : SieveSt) (hG : GearInv st.o st.w5 st.w7) :
    4 ≤ nextO st ∧ visOK (nextO st) := by
  have h := GearInv_next st hG
  have hv := h.2.1
  have ho : 1 ≤ st.o := hG.1
  refine ⟨?_, hv⟩
  by_contra hc
  push_neg at hc
  have h23 : nextO st = 2 ∨ nextO st = 3 := by have := lt_nextO st; omega
  rcases h23 with h' | h' <;> rw [h'] at hv <;> unfold visOK at hv <;> revert hv <;> decide

theorem no_cop210_between (st : SieveSt) (hG : GearInv st.o st.w5 st.w7) (w : Nat)
    (hw2 : w % 2 = 1) (hw3 : w % 3 ≠ 0) (hw5 : w % 5 ≠ 0) (hw7 : w % 7 ≠ 0)
    (h1 : forward3 st.o < w) (h2 : w < forward3 (nextO st)) : False := by
  obtain ⟨o', ho', heq⟩ := exists_forward3 w ⟨hw2, hw3⟩
  have hgap := (GearInv_next st hG).2.2
  have ho1 : st.o < o' := by
    by_contra hc
    push_neg at hc
    have := forward3_mono hc
    omega
  have ho2 : o' < nextO st := by
    by_contra hc
    push_neg at hc
    have := forward3_mono hc
    omega
  exact hgap o' ho1 ho2 ⟨by rw [heq]; exact hw5, by rw [heq]; exact hw7⟩

theorem prime_in_gap {x : Nat} (hx : Nat.Prime x) (h8 : 8 ≤ x) : 11 ≤ x := by
  rcases Nat.lt_or_ge x 11 with h | h
  · interval_cases x <;> revert hx <;> decide
  · exact h

theorem no_prime_in_gap (st : SieveSt) (hG : GearInv st.o st.w5 st.w7) {x : Nat}
    (hx : Nat.Prime x) (h8 : 8 ≤ x) (h1 : forward3 st.o < x) (h2 : x < forward3 (nextO st)) :
    False := by
  have h11 := prime_in_gap hx h8
  have hc := prime_ge11_cop210 hx h11
  exact no_cop210_between st hG x hc.1 hc.2.1 hc.2.2.1 hc.2.2.2 h1 h2

theorem prime_le_of_lt_next (st : SieveSt) (hG : GearInv st.o st.w5 st.w7) {p : Nat}
    (hp : Nat.Prime p) (h11 : 11 ≤ p) (hlt : p < forward3 (nextO st)) :
    p ≤ forward3 st.o := by
  by_contra hc
  push_neg at hc
  exact no_prime_in_gap st hG hp (by omega) hc hlt

/-- The contents of the `notPrime` bitmap after the primes up to `B`
have been processed: position `ix` is set exactly when it is the
`backward5` image of a marked multiple `p * m ≤ n`. -/
def MarkedUpTo (n B : Nat) (marked : Nat → Bool) : Prop :=
  ∀ ix, marked ix = true ↔ ∃ p m, Nat.Prime p ∧ 11 ≤ p ∧ p ≤ B ∧ p ≤ m ∧
    (m % 6 = 1 ∨ m % 6 = 5) ∧ p * m ≤ n ∧ p * m % 5 ≠ 0 ∧ backward5 (p * m) = ix

/-- The contents of the `notPrime` bitmap after the whole first loop:
all sieving primes (those with `p * p ≤ n`) have been processed. -/
def MarkedFinal (n : Nat) (marked : Nat → Bool) : Prop :=
  ∀ ix, marked ix = true ↔ ∃ p m, Nat.Prime p ∧ 11 ≤ p ∧ p ≤ m ∧
    (m % 6 = 1 ∨ m % 6 = 5) ∧ p * m ≤ n ∧ p * m % 5 ≠ 0 ∧ backward5 (p * m) = ix

theorem marked_value_composite {v p m : Nat} (hp : Nat.Prime p) (h11 : 11 ≤ p) (hpm : p ≤ m)
    (hcop : m % 6 = 1 ∨ m % 6 = 5) (h5 : p * m % 5 ≠ 0)
    (hback : backward5 (p * m) = backward5 v)
    (hv2 : v % 2 = 1) (hv3 : v % 3 ≠ 0) (hv5 : v % 5 ≠ 0) : ¬Nat.Prime v := by
  have hpc := prime_ge11_cop210 hp h11
  have hprod2 : p * m % 2 = 1 := mod2_mul_oneary hpc.1 (by omega)
  have hprod3 : p * m % 3 ≠ 0 := mod3_mul_ne hpc.2.1 (by omega)
  have heq : p * m = v := backward5_inj ⟨hprod2, hprod3, h5⟩ ⟨hv2, hv3, hv5⟩ hback
  rw [← heq]
  exact not_prime_mul hp h11 hpm

/-- The loop invariant of the first sieve loop. -/
structure Inv1 (n : Nat) (st : SieveSt) : Prop where
  gear : GearInv st.o st.w5 st.w7
  pos : st.o = 1 ∨ (4 ≤ st.o ∧ visOK st.o)
  squares : ∀ w, 11 ≤ w → w ≤ forward3 st.o → w % 2 = 1 → w % 3 ≠ 0 → w % 5 ≠ 0 →
    w % 7 ≠ 0 → w * w ≤ n
  bitmap : MarkedUpTo n (forward3 st.o) st.marked
  accum : st.acc = (List.range (max (forward3 st.o) 7 + 1)).filter (fun m => decide (Nat.Prime m))

/-- The loop invariant of the second sieve loop. -/
structure Inv2 (n : Nat) (st : SieveSt) : Prop where
  gear : GearInv st.o st.w5 st.w7
  pos4 : 4 ≤ st.o
  vis : visOK st.o
  bitmap : MarkedFinal n st.marked
  accum : st.acc = (List.range (min (forward3 st.o) (n + 1))).filter
    (fun m => decide (Nat.Prime m))

theorem filter_range'_last (P : Nat → Bool) (A len : Nat) (h1 : 1 ≤ len)
    (hv : P (A + len - 1) = true) (h : ∀ x, A ≤ x → x < A + len - 1 → P x = false) :
    (List.range' A len).filter P = [A + len - 1] := by
  induction len generalizing A with
  | zero => omega
  | succ l ih =>
    rcases Nat.eq_or_lt_of_le h1 with he | hlt
    · rw [← he] at hv ⊢
      simp only [List.range'_succ, List.range'_zero, List.filter_cons, List.filter_nil]
      rw [show A + 1 - 1 = A from by omega] at hv
      rw [hv, if_pos rfl]
      rw [show A + 1 - 1 = A from by omega]
    · rw [List.range'_succ, List.filter_cons]
      have hA : P A = false := h A (Nat.le_refl A) (by omega)
      rw [hA]
      simp only [Bool.false_eq_true, if_neg]
      have h2 := ih (A + 1) (by omega)
        (by rw [show A + 1 + l - 1 = A + (l + 1) - 1 from by omega]; exact hv)
        (fun x hx1 hx2 => h x (by omega) (by omega))
      rw [show A + 1 + l - 1 = A + (l + 1) - 1 from by omega] at h2
      exact h2

/-- The current value of the enumeration together with its coprimality facts. -/
theorem visit_facts (st : SieveSt) (hG : GearInv st.o st.w5 st.w7) :
    11 ≤ forward3 (nextO st) ∧ forward3 (nextO st) % 2 = 1 ∧ forward3 (nextO st) % 3 ≠ 0 ∧
      forward3 (nextO st) % 5 ≠ 0 ∧ forward3 (nextO st) % 7 ≠ 0 := by
  obtain ⟨h4, hvis⟩ := nextO_ge4 st hG
  have hc6 := forward3_coprime6 (nextO st) (by omega)
  exact ⟨forward3_ge11 (nextO st) h4, hc6.1, hc6.2, hvis.1, hvis.2⟩

theorem Inv1_skip (n : Nat) (st : SieveSt) (hInv : Inv1 n st)
    (hsq : ¬forward3 (nextO st) * forward3 (nextO st) > n)
    (hm : st.marked (backward5 (forward3 (nextO st))) = true) :
    Inv1 n { st with o := nextO st, w5 := nextW5 st, w7 := nextW7 st } := by
  obtain ⟨hG, hpos, hsqs, hMk, hacc⟩ := hInv
  obtain ⟨h11v, hv2, hv3, hv5, hv7⟩ := visit_facts st hG
  have hmono : forward3 st.o ≤ forward3 (nextO st) := forward3_mono (Nat.le_of_lt (lt_nextO st))
  have hcomp : ¬Nat.Prime (forward3 (nextO st)) := by
    obtain ⟨p, m, hp, h11, hpB, hpm, hcop, hle, h5, hback⟩ := (hMk _).mp hm
    exact marked_value_composite hp h11 hpm hcop h5 hback hv2 hv3 hv5
  refine ⟨(GearInv_next st hG).1, Or.inr (nextO_ge4 st hG), ?_, ?_, ?_⟩
  · dsimp only
    intro w h11 hle hw2 hw3 hw5 hw7
    rcases Nat.lt_trichotomy w (forward3 st.o) with hlt | heq | hgt
    · exact hsqs w h11 (by omega) hw2 hw3 hw5 hw7
    · exact hsqs w h11 (by omega) hw2 hw3 hw5 hw7
    · rcases Nat.eq_or_lt_of_le hle with he | hlt2
      · rw [he]; omega
      · exact absurd (no_cop210_between st hG w hw2 hw3 hw5 hw7 hgt hlt2) (fun h => h)
  · dsimp only
    intro ix
    rw [hMk ix]
    constructor
    · rintro ⟨p, m, hp, h11, hpB, rest⟩
      exact ⟨p, m, hp, h11, by omega, rest⟩
    · rintro ⟨p, m, hp, h11, hpB, rest⟩
      refine ⟨p, m, hp, h11, ?_, rest⟩
      rcases Nat.eq_or_lt_of_le hpB with he | hlt
      · exact absurd (he ▸ hp) hcomp
      · exact prime_le_of_lt_next st hG hp h11 hlt
  · dsimp only
    rw [hacc]
    have hmax1 : max (forward3 st.o) 7 + 1 ≤ max (forward3 (nextO st)) 7 + 1 := by omega
    rw [filter_range_split _ (max (forward3 st.o) 7 + 1) (max (forward3 (nextO st)) 7 + 1) hmax1]
    rw [filter_range'_nil, List.append_nil]
    intro x hx1 hx2
    rw [decide_eq_false_iff_not]
    intro hxp
    have hx8 : 8 ≤ x := by omega
    have hx11 := prime_in_gap hxp hx8
    have hxc := prime_ge11_cop210 hxp hx11
    have hlt : x < forward3 (nextO st) := by
      have hxle : x ≤ forward3 (nextO st) := by omega
      rcases Nat.eq_or_lt_of_le hxle with he | h
      · exact absurd (he ▸ hxp) hcomp
      · exact h
    exact no_cop210_between st hG x hxc.1 hxc.2.1 hxc.2.2.1 hxc.2.2.2 (by omega) hlt

theorem Inv1_prime (n : Nat) (st : SieveSt) (hInv : Inv1 n st)
    (hsq : ¬forward3 (nextO st) * forward3 (nextO st) > n)
    (hm : st.marked (backward5 (forward3 (nextO st))) = false)
    (hp0 : 0 < forward3 (nextO st)) :
    Inv1 n { o := nextO st, w5 := nextW5 st, w7 := nextW7 st,
             marked := markFor n (forward3 (nextO st)) hp0 st.marked,
             acc := st.acc ++ [forward3 (nextO st)] } := by
  obtain ⟨hG, hpos, hsqs, hMk, hacc⟩ := hInv
  obtain ⟨h11v, hv2, hv3, hv5, hv7⟩ := visit_facts st hG
  have hmono : forward3 st.o ≤ forward3 (nextO st) := forward3_mono (Nat.le_of_lt (lt_nextO st))
  have hsq' : forward3 (nextO st) * forward3 (nextO st) ≤ n := by omega
  have hvn : forward3 (nextO st) ≤ n := le_of_sq_le hsq'
  have hvprime : Nat.Prime (forward3 (nextO st)) := by
    by_contra hc
    obtain ⟨p, m, hp, h11, hpm, hcopm, heq, hplt⟩ :=
      cop210_composite_split ⟨hv2, hv3, hv5, hv7⟩ h11v hc
    have hmkT : st.marked (backward5 (forward3 (nextO st))) = true := by
      apply (hMk _).mpr
      refine ⟨p, m, hp, h11, ?_, hpm, hcopm, by rw [heq]; exact hvn,
        by rw [heq]; exact hv5, by rw [heq]⟩
      exact prime_le_of_lt_next st hG hp h11 (by omega)
    rw [hm] at hmkT
    exact Bool.noConfusion hmkT
  have hv6 : forward3 (nextO st) % 6 = 1 ∨ forward3 (nextO st) % 6 = 5 := by omega
  have hA : max (forward3 st.o) 7 + 1 ≤ forward3 (nextO st) := by
    have hf1 : forward3 1 = 1 := by decide
    rcases hpos with h1 | ⟨h4, hvis⟩
    · rw [h1]
      rw [hf1]
      omega
    · have := forward3_strictMono (by omega : 1 ≤ st.o) (lt_nextO st)
      omega
  refine ⟨(GearInv_next st hG).1, Or.inr (nextO_ge4 st hG), ?_, ?_, ?_⟩
  · dsimp only
    intro w h11 hle hw2 hw3 hw5 hw7
    rcases Nat.lt_trichotomy w (forward3 st.o) with hlt | heq | hgt
    · exact hsqs w h11 (by omega) hw2 hw3 hw5 hw7
    · exact hsqs w h11 (by omega) hw2 hw3 hw5 hw7
    · rcases Nat.eq_or_lt_of_le hle with he | hlt2
      · rw [he]; omega
      · exact absurd (no_cop210_between st hG w hw2 hw3 hw5 hw7 hgt hlt2) (fun h => h)
  · dsimp only
    intro ix
    rw [markFor_spec n (forward3 (nextO st)) (by omega) hv6 hv5 hsq' st.marked ix]
    rw [hMk ix]
    constructor
    · rintro (⟨p, m, hp, h11, hpB, rest⟩ | ⟨m, hm', hcop', hmn, h5, hback⟩)
      · exact ⟨p, m, hp, h11, by omega, rest⟩
      · exact ⟨forward3 (nextO st), m, hvprime, h11v, Nat.le_refl _, hm', hcop', hmn, h5, hback⟩
    · rintro ⟨p, m, hp, h11, hpB, hpm, hcop', hmn, h5, hback⟩
      rcases Nat.eq_or_lt_of_le hpB with he | hlt
      · right
        rw [he] at hpm hmn h5 hback
        exact ⟨m, hpm, hcop', hmn, h5, hback⟩
      · left
        exact ⟨p, m, hp, h11, prime_le_of_lt_next st hG hp h11 hlt, hpm, hcop', hmn, h5, hback⟩
  · dsimp only
    have hgap : ∀ x, max (forward3 st.o) 7 + 1 ≤ x → x < forward3 (nextO st) →
        (fun m => decide (Nat.Prime m)) x = false := by
      intro x hx1 hx2
      rw [decide_eq_false_iff_not]
      intro hxp
      have hx11 := prime_in_gap hxp (by omega)
      have hxc := prime_ge11_cop210 hxp hx11
      exact no_cop210_between st hG x hxc.1 hxc.2.1 hxc.2.2.1 hxc.2.2.2 (by omega) hx2
    have hmax : max (forward3 (nextO st)) 7 = forward3 (nextO st) := Nat.max_eq_left (by omega)
    rw [hmax]
    have hlen : (max (forward3 st.o) 7 + 1) +
        (forward3 (nextO st) + 1 - (max (forward3 st.o) 7 + 1)) - 1 = forward3 (nextO st) := by
      omega
    have hlast := filter_range'_last (fun m => decide (Nat.Prime m))
        (max (forward3 st.o) 7 + 1) (forward3 (nextO st) + 1 - (max (forward3 st.o) 7 + 1))
        (by omega)
        (by rw [hlen]; exact decide_eq_true hvprime)
        (by intro x hx1 hx2; rw [hlen] at hx2; exact hgap x hx1 hx2)
    rw [hlen] at hlast
    rw [filter_range_split _ (max (forward3 st.o) 7 + 1) (forward3 (nextO st) + 1) (by omega),
      hlast, ← hacc]

theorem Inv1_exit (n : Nat) (h9 : 9 ≤ n) (st : SieveSt) (hInv : Inv1 n st)
    (hsq : forward3 (nextO st) * forward3 (nextO st) > n) :
    Inv2 n { st with o := nextO st, w5 := nextW5 st, w7 := nextW7 st } := by
  obtain ⟨hG, hpos, hsqs, hMk, hacc⟩ := hInv
  obtain ⟨h11v, hv2, hv3, hv5, hv7⟩ := visit_facts st hG
  have hf1 : forward3 1 = 1 := by decide
  have hstrict : forward3 st.o < forward3 (nextO st) := by
    rcases hpos with h1 | ⟨h4, hvis⟩
    · rw [h1, hf1]; omega
    · exact forward3_strictMono (by omega) (lt_nextO st)
  have hBn : max (forward3 st.o) 7 ≤ n := by
    rcases hpos with h1 | ⟨h4, hvis⟩
    · rw [h1, hf1]; omega
    · have hc6 := forward3_coprime6 st.o (by omega)
      have h11o := forward3_ge11 st.o h4
      have hsqo := hsqs (forward3 st.o) h11o (Nat.le_refl _) hc6.1 hc6.2 hvis.1 hvis.2
      have := le_of_sq_le hsqo
      omega
  obtain ⟨h4n, hvisn⟩ := nextO_ge4 st hG
  refine ⟨(GearInv_next st hG).1, h4n, hvisn, ?_, ?_⟩
  · dsimp only
    intro ix
    rw [hMk ix]
    constructor
    · rintro ⟨p, m, hp, h11, hpB, rest⟩
      exact ⟨p, m, hp, h11, rest⟩
    · rintro ⟨p, m, hp, h11, hpm, hcop', hmn, h5, hback⟩
      have hppn : p * p ≤ n := Nat.le_trans (Nat.mul_le_mul_left p hpm) hmn
      have hplt : p < forward3 (nextO st) := by
        by_contra hc
        push_neg at hc
        have := Nat.mul_le_mul hc hc
        omega
      exact ⟨p, m, hp, h11, prime_le_of_lt_next st hG hp h11 hplt, hpm, hcop', hmn, h5, hback⟩
  · dsimp only
    rw [hacc]
    have hU : max (forward3 st.o) 7 + 1 ≤ min (forward3 (nextO st)) (n + 1) := by omega
    rw [filter_range_split _ (max (forward3 st.o) 7 + 1) (min (forward3 (nextO st)) (n + 1)) hU]
    rw [filter_range'_nil, List.append_nil]
    intro x hx1 hx2
    rw [decide_eq_false_iff_not]
    intro hxp
    exact no_prime_in_gap st hG hxp (by omega) (by omega) (by omega)

theorem Inv2_step (n : Nat) (st : SieveSt) (hInv : Inv2 n st) (hle : ¬forward3 st.o > n) :
    Inv2 n { o := nextO st, w5 := nextW5 st, w7 := nextW7 st, marked := st.marked,
             acc := if st.marked (backward5 (forward3 st.o)) then st.acc
                    else st.acc ++ [forward3 st.o] } := by
  obtain ⟨hG, h4, hvis, hMk, hacc⟩ := hInv
  have hc6 := forward3_coprime6 st.o (by omega)
  have h11o := forward3_ge11 st.o h4
  have hstrict : forward3 st.o < forward3 (nextO st) :=
    forward3_strictMono (by omega) (lt_nextO st)
  have hminO : min (forward3 st.o) (n + 1) = forward3 st.o := Nat.min_eq_left (by omega)
  obtain ⟨h4n, hvisn⟩ := nextO_ge4 st hG
  refine ⟨(GearInv_next st hG).1, h4n, hvisn, hMk, ?_⟩
  dsimp only
  by_cases hmk : st.marked (backward5 (forward3 st.o)) = true
  · rw [if_pos hmk, hacc, hminO]
    have hcomp : ¬Nat.Prime (forward3 st.o) := by
      obtain ⟨p, m, hp, h11, hpm, hcop', hmn, h5, hback⟩ := (hMk _).mp hmk
      exact marked_value_composite hp h11 hpm hcop' h5 hback hc6.1 hc6.2 hvis.1
    rw [filter_range_split _ (forward3 st.o) (min (forward3 (nextO st)) (n + 1)) (by omega)]
    rw [filter_range'_nil, List.append_nil]
    intro x hx1 hx2
    rw [decide_eq_false_iff_not]
    intro hxp
    rcases Nat.eq_or_lt_of_le hx1 with he | hlt
    · exact hcomp (he ▸ hxp)
    · exact no_prime_in_gap st hG hxp (by omega) hlt (by omega)
  · rw [if_neg hmk, hacc, hminO]
    have hvp : Nat.Prime (forward3 st.o) := by
      by_contra hcx
      obtain ⟨p, m, hp, h11, hpm, hcopm, heq, hplt⟩ :=
        cop210_composite_split ⟨hc6.1, hc6.2, hvis.1, hvis.2⟩ h11o hcx
      exact hmk ((hMk _).mpr ⟨p, m, hp, h11, hpm, hcopm, by rw [heq]; omega,
        by rw [heq]; exact hvis.1, by rw [heq]⟩)
    rw [filter_range_split _ (forward3 st.o) (min (forward3 (nextO st)) (n + 1)) (by omega)]
    rw [filter_range'_single _ (forward3 st.o) _ (by omega) (decide_eq_true hvp)
      (by
        intro x hx1 hx2
        rw [decide_eq_false_iff_not]
        intro hxp
        exact no_prime_in_gap st hG hxp (by omega) hx1 (by omega))]

theorem sieveLoop1_spec (n : Nat) (h9 : 9 ≤ n) (st : SieveSt) (hInv : Inv1 n st) :
    Inv2 n (sieveLoop1 n st) := by
  revert hInv
  induction st using sieveLoop1.induct n with
  | case1 st h =>
    intro hInv
    rw [sieveLoop1, dif_pos h]
    exact Inv1_exit n h9 st hInv h
  | case2 st h hmk ih =>
    intro hInv
    rw [sieveLoop1, dif_neg h, if_pos hmk]
    exact ih (Inv1_skip n st hInv h hmk)
  | case3 st h hmk ih =>
    intro hInv
    rw [sieveLoop1, dif_neg h, if_neg hmk]
    exact ih (Inv1_prime n st hInv h (Bool.eq_false_iff.mpr hmk) _)

theorem sieveLoop2_spec (n : Nat) (st : SieveSt) (hInv : Inv2 n st) :
    sieveLoop2 n st = (List.range (n + 1)).filter (fun m => decide (Nat.Prime m)) := by
  revert hInv
  induction st using sieveLoop2.induct n with
  | case1 st h =>
    intro hInv
    rw [sieveLoop2, dif_pos h]
    rw [hInv.accum, Nat.min_eq_right (by omega)]
  | case2 st h ih =>
    intro hInv
    rw [sieveLoop2, dif_neg h]
    exact ih (Inv2_step n st hInv h)

theorem Inv1_init (n : Nat) (h9 : 9 ≤ n) :
    Inv1 n ⟨1, 129, 9009416540524545, fun _ => false, [2, 3, 5, 7]⟩ := by
  have hf1 : forward3 1 = 1 := by decide
  refine ⟨GearInv_init, Or.inl rfl, ?_, ?_, ?_⟩
  · dsimp only
    intro w h11 hle hw2 hw3 hw5 hw7
    omega
  · dsimp only
    intro ix
    constructor
    · intro h
      exact Bool.noConfusion h
    · rintro ⟨p, m, hp, h11, hpB, rest⟩
      omega
  · dsimp only
    rw [hf1]
    decide

/-- C4.  For every bound `n ≥ 2`, `SieveOfEratosthenes n` returns
exactly the primes up to `n`: the result equals the filter of
`0, 1, …, n` by primality, which lists every prime `≤ n` exactly once,
in ascending order. -/
theorem c4_sieve_primes (n : Nat) (h : 2 ≤ n) :
    SieveOfEratosthenes n = (List.range (n + 1)).filter (fun m => decide (Nat.Prime m)) := by
  unfold SieveOfEratosthenes
  by_cases h9 : n < 9
  · rw [if_neg (by omega), if_pos h9]
    interval_cases n <;> decide
  · rw [if_neg (by omega), if_neg h9]
    exact sieveLoop2_spec n _ (sieveLoop1_spec n (by omega) _ (Inv1_init n (by omega)))

/-- C4 witness: the sieve applied at the concrete bound 100. -/
theorem c4_witness :
    2 ≤ 100 ∧ SieveOfEratosthenes 100
      = (List.range 101).filter (fun m => decide (Nat.Prime m)) :=
  ⟨by norm_num, c4_sieve_primes 100 (by norm_num)⟩


end Qimcifa
